import Mathlib

/-!
Verification development for the `tester-agent` repository.

The repository turns a programming-exercise statement (PDF) plus a code
template into generated solutions, generated test cases, pytest test files
and a downloadable ZIP.  The Python sources under verification are
`core/utils.py`, `core/extractor.py`, `core/test_builder.py` and `app.py`.

The shallow embedding models Python strings as lists of Unicode codepoints
(`List Nat`).  Python's character classification tables (`re`'s view of
whitespace and word characters, `str.lower`) are modelled by a record
`PyTextModel`; the concrete instance `pyAscii` is exact on the ASCII range,
which is the whole range that the `allow_unicode = False` paths can observe.
-/

namespace TesterAgent

/-- Codepoints of a Lean string literal, used to write concrete examples. -/
def strCodes (s : String) : List Nat := s.data.map Char.toNat

/-- Python `re` whitespace class `\s` over `str` (the full fixed Unicode set:
`Py_UNICODE_ISSPACE`). -/
def pyIsSpace (c : Nat) : Bool :=
  (9 ≤ c && c ≤ 13) || (28 ≤ c && c ≤ 32) || c == 133 || c == 160 ||
  c == 5760 || (8192 ≤ c && c ≤ 8202) || c == 8232 || c == 8233 ||
  c == 8239 || c == 8287 || c == 12288

/-- Python `re` word class `\w` restricted to ASCII: `[0-9A-Za-z_]`.
Exact on codepoints below 128; non-ASCII word classification is abstracted
by `PyTextModel` where it can matter. -/
def isAsciiWord (c : Nat) : Bool :=
  (48 ≤ c && c ≤ 57) || (65 ≤ c && c ≤ 90) || (97 ≤ c && c ≤ 122) || c == 95

/-- `str.lower` restricted to ASCII: maps `A`-`Z` to `a`-`z`, exact below 128. -/
def asciiLower (c : Nat) : Nat := if 65 ≤ c ∧ c ≤ 90 then c + 32 else c

/-- The character-level semantics `slugify` gets from Python's `re` module and
`str.lower`: a whitespace class, a word class and a lowercasing map. -/
structure PyTextModel where
  isSpace : Nat → Bool
  isWord : Nat → Bool
  toLower : Nat → Nat

/-- Python's text semantics restricted to the ASCII range (exact there).
This is the full semantics visible to `slugify` once
`encode("ascii", "ignore")` has run. -/
def pyAscii : PyTextModel where
  isSpace := pyIsSpace
  isWord := isAsciiWord
  toLower := asciiLower

/-- One pass of `re.sub(r"[\s\-]+", "_", value)`: every maximal nonempty run
of characters matching `p` is replaced by a single `_` (codepoint 95).
`inRun` records whether the previous character was part of such a run. -/
def collapseRuns (p : Nat → Bool) (inRun : Bool) : List Nat → List Nat
  | [] => []
  | c :: cs =>
    if p c then
      if inRun then collapseRuns p true cs
      else 95 :: collapseRuns p true cs
    else c :: collapseRuns p false cs

/-- Python `str.strip("_")`: remove leading and trailing underscores. -/
def stripUnderscores (l : List Nat) : List Nat :=
  ((l.dropWhile (· == 95)).reverse.dropWhile (· == 95)).reverse

/-- `utils.slugify`.  Steps, in source order: optionally drop every
non-ASCII codepoint (`encode("ascii", "ignore").decode("ascii")`), replace
runs of whitespace or hyphens by one underscore, delete every character that
is neither a word character nor an underscore, lowercase, and strip
underscores from both ends. -/
def slugify (M : PyTextModel) (allow_unicode : Bool) (value : List Nat) : List Nat :=
  let v1 := if allow_unicode then value else value.filter (fun c => c ≤ 127)
  let v2 := collapseRuns (fun c => M.isSpace c || c == 45) false v1
  let v3 := v2.filter (fun c => M.isWord c || c == 95)
  let v4 := v3.map M.toLower
  stripUnderscores v4

/-- Characters a slug may contain: lowercase ASCII letters, digits, underscore. -/
def isLowerSlugChar (c : Nat) : Bool :=
  (97 ≤ c && c ≤ 122) || (48 ≤ c && c ≤ 57) || c == 95

section SlugLemmas

theorem mem_collapseRuns {p : Nat → Bool} {b : Bool} {l : List Nat} {c : Nat}
    (h : c ∈ collapseRuns p b l) : c = 95 ∨ (c ∈ l ∧ p c = false) := by
  induction l generalizing b with
  | nil =>
    rw [collapseRuns] at h
    exact absurd h (List.not_mem_nil c)
  | cons x xs ih =>
    by_cases hx : p x
    · cases b with
      | true =>
        rw [collapseRuns, if_pos hx, if_pos rfl] at h
        rcases ih h with h' | h'
        · exact Or.inl h'
        · exact Or.inr ⟨List.mem_cons_of_mem _ h'.1, h'.2⟩
      | false =>
        rw [collapseRuns, if_pos hx] at h
        simp only [Bool.false_eq_true, if_false, List.mem_cons] at h
        rcases h with rfl | h
        · exact Or.inl rfl
        · rcases ih h with h' | h'
          · exact Or.inl h'
          · exact Or.inr ⟨List.mem_cons_of_mem _ h'.1, h'.2⟩
    · rw [collapseRuns, if_neg hx] at h
      rcases List.mem_cons.mp h with rfl | h
      · exact Or.inr ⟨List.mem_cons_self _ _, by simpa using hx⟩
      · rcases ih h with h' | h'
        · exact Or.inl h'
        · exact Or.inr ⟨List.mem_cons_of_mem _ h'.1, h'.2⟩

theorem collapseRuns_eq_self {p : Nat → Bool} {l : List Nat}
    (h : ∀ c ∈ l, p c = false) : collapseRuns p false l = l := by
  induction l with
  | nil => rfl
  | cons x xs ih =>
    have hx : p x = false := h x (List.mem_cons_self _ _)
    rw [collapseRuns, if_neg (by simp [hx])]
    exact congrArg (x :: ·) (ih fun c hc => h c (List.mem_cons_of_mem _ hc))

theorem mem_stripUnderscores {l : List Nat} {c : Nat}
    (h : c ∈ stripUnderscores l) : c ∈ l := by
  unfold stripUnderscores at h
  rw [List.mem_reverse] at h
  have h1 := (List.dropWhile_sublist (l := (l.dropWhile (· == 95)).reverse)
    (p := (· == 95))).subset h
  rw [List.mem_reverse] at h1
  exact (List.dropWhile_sublist (l := l) (p := (· == 95))).subset h1

theorem head_dropWhile_not {p : Nat → Bool} :
    ∀ {l : List Nat} {c : Nat}, (l.dropWhile p).head? = some c → p c = false := by
  intro l
  induction l with
  | nil => intro c h; simp [List.dropWhile] at h
  | cons x xs ih =>
    intro c h
    by_cases hx : p x
    · rw [List.dropWhile_cons_of_pos hx] at h
      exact ih h
    · rw [List.dropWhile_cons_of_neg hx] at h
      simp only [List.head?_cons, Option.some.injEq] at h
      subst h
      simpa using hx

theorem stripUnderscores_head {l : List Nat} {c : Nat}
    (h : (stripUnderscores l).head? = some c) : c ≠ 95 := by
  intro hc
  subst hc
  unfold stripUnderscores at h
  obtain ⟨t, ht⟩ := List.dropWhile_suffix (l := (l.dropWhile (· == 95)).reverse)
    (p := (· == 95))
  rcases he : ((l.dropWhile (· == 95)).reverse.dropWhile (· == 95)).reverse
      with _ | ⟨y, ys⟩
  · rw [he] at h; exact absurd h (by simp)
  · rw [he] at h
    simp only [List.head?_cons, Option.some.injEq] at h
    subst h
    -- The head of the stripped list is the head of `l.dropWhile (· == 95)`.
    have hrev : l.dropWhile (· == 95)
        = (95 :: ys) ++ t.reverse := by
      have := congrArg List.reverse ht
      rw [List.reverse_append, List.reverse_reverse] at this
      rw [← this, ← he]
    have : (l.dropWhile (· == 95)).head? = some 95 := by
      rw [hrev]; rfl
    have := head_dropWhile_not this
    simp at this

theorem stripUnderscores_last {l : List Nat} {c : Nat}
    (h : (stripUnderscores l).reverse.head? = some c) : c ≠ 95 := by
  intro hc
  subst hc
  unfold stripUnderscores at h
  rw [List.reverse_reverse] at h
  have := head_dropWhile_not h
  simp at this

theorem stripUnderscores_eq_self {l : List Nat}
    (hhead : ∀ c, l.head? = some c → c ≠ 95)
    (hlast : ∀ c, l.reverse.head? = some c → c ≠ 95) :
    stripUnderscores l = l := by
  have h1 : l.dropWhile (· == 95) = l := by
    rcases l with _ | ⟨x, xs⟩
    · rfl
    · have : x ≠ 95 := hhead x rfl
      rw [List.dropWhile_cons_of_neg (by simpa using this)]
  unfold stripUnderscores
  rw [h1]
  have h2 : l.reverse.dropWhile (· == 95) = l.reverse := by
    rcases hr : l.reverse with _ | ⟨y, ys⟩
    · rfl
    · have : y ≠ 95 := hlast y (by rw [hr]; rfl)
      rw [List.dropWhile_cons_of_neg (by simpa using this)]
  rw [h2, List.reverse_reverse]

theorem map_eq_self_of_fixed {f : Nat → Nat} {l : List Nat}
    (h : ∀ c ∈ l, f c = c) : l.map f = l := by
  induction l with
  | nil => rfl
  | cons x xs ih =>
    simp only [List.map_cons]
    rw [h x (List.mem_cons_self _ _), ih fun c hc => h c (List.mem_cons_of_mem _ hc)]

theorem asciiLower_slugChar {c : Nat} (h : isAsciiWord c = true ∨ c = 95) :
    isLowerSlugChar (asciiLower c) = true := by
  unfold asciiLower
  split_ifs with h32
  · simp only [isAsciiWord, isLowerSlugChar, Bool.or_eq_true, Bool.and_eq_true,
      decide_eq_true_eq, beq_iff_eq] at h ⊢
    omega
  · simp only [isAsciiWord, isLowerSlugChar, Bool.or_eq_true, Bool.and_eq_true,
      decide_eq_true_eq, beq_iff_eq] at h ⊢
    omega

/-- Every character of `slugify pyAscii false s` is a lowercase ASCII letter,
digit or underscore. -/
theorem slugify_ascii_chars {s : List Nat} {c : Nat}
    (h : c ∈ slugify pyAscii false s) : isLowerSlugChar c = true := by
  unfold slugify at h
  have h4 := mem_stripUnderscores h
  simp only [List.mem_map] at h4
  obtain ⟨c', hc', rfl⟩ := h4
  have h3 := List.mem_filter.mp hc'
  refine asciiLower_slugChar ?_
  rcases Bool.or_eq_true _ _ |>.mp h3.2 with h' | h'
  · exact Or.inl h'
  · exact Or.inr (by simpa using h')

theorem isLowerSlugChar_le {c : Nat} (h : isLowerSlugChar c = true) : c ≤ 127 := by
  simp only [isLowerSlugChar, Bool.or_eq_true, Bool.and_eq_true, decide_eq_true_eq,
    beq_iff_eq] at h
  omega

theorem slugChar_not_spaceHyphen {c : Nat} (h : isLowerSlugChar c = true) :
    (pyIsSpace c || c == 45) = false := by
  cases hb : (pyIsSpace c || c == 45) with
  | false => rfl
  | true =>
    exfalso
    simp only [isLowerSlugChar, pyIsSpace, Bool.or_eq_true, Bool.and_eq_true,
      decide_eq_true_eq, beq_iff_eq] at h hb
    omega

theorem slugChar_keep {c : Nat} (h : isLowerSlugChar c = true) :
    (isAsciiWord c || c == 95) = true := by
  simp only [isLowerSlugChar, isAsciiWord, Bool.or_eq_true, Bool.and_eq_true,
    decide_eq_true_eq, beq_iff_eq] at h ⊢
  omega

theorem slugChar_lower_fixed {c : Nat} (h : isLowerSlugChar c = true) :
    asciiLower c = c := by
  simp only [isLowerSlugChar, Bool.or_eq_true, Bool.and_eq_true, decide_eq_true_eq,
    beq_iff_eq] at h
  unfold asciiLower
  rw [if_neg (by omega)]

end SlugLemmas

/-- C4: with `allow_unicode = False`, `slugify` (a total function of its input)
returns a string whose characters are only lowercase ASCII letters, digits and
underscores, with no leading or trailing underscore; the empty string maps to
the empty string, and `slugify "My Exercise #1!"` is `"my_exercise_1"`. -/
theorem slugify_ascii_safe (s : List Nat) :
    (∀ c ∈ slugify pyAscii false s, isLowerSlugChar c = true) ∧
    (∀ c, (slugify pyAscii false s).head? = some c → c ≠ 95) ∧
    (∀ c, (slugify pyAscii false s).reverse.head? = some c → c ≠ 95) ∧
    slugify pyAscii false [] = [] ∧
    slugify pyAscii false (strCodes "My Exercise #1!") = strCodes "my_exercise_1" := by
  refine ⟨fun c hc => slugify_ascii_chars hc, ?_, ?_, by decide, by decide⟩
  · intro c h
    unfold slugify at h
    exact stripUnderscores_head h
  · intro c h
    unfold slugify at h
    exact stripUnderscores_last h

/-- Closed instance of `slugify_ascii_safe`: the character `m` (109) occurs in
the slug of `"My Exercise #1!"` and is a legal slug character. -/
theorem slugify_ascii_safe_witness :
    109 ∈ slugify pyAscii false (strCodes "My Exercise #1!") ∧
      isLowerSlugChar 109 = true :=
  ⟨by decide, (slugify_ascii_safe (strCodes "My Exercise #1!")).1 109 (by decide)⟩

/-- C8: `slugify` with `allow_unicode = False` is idempotent. -/
theorem slugify_idempotent (s : List Nat) :
    slugify pyAscii false (slugify pyAscii false s) = slugify pyAscii false s := by
  have hchars : ∀ c ∈ slugify pyAscii false s, isLowerSlugChar c = true :=
    fun c hc => slugify_ascii_chars hc
  have hhead : ∀ c, (slugify pyAscii false s).head? = some c → c ≠ 95 := by
    intro c h
    unfold slugify at h
    exact stripUnderscores_head h
  have hlast : ∀ c, (slugify pyAscii false s).reverse.head? = some c → c ≠ 95 := by
    intro c h
    unfold slugify at h
    exact stripUnderscores_last h
  set r := slugify pyAscii false s with hr
  have e1 : r.filter (fun c => decide (c ≤ 127)) = r :=
    List.filter_eq_self.mpr fun c hc => by
      simpa using isLowerSlugChar_le (hchars c hc)
  have e2 : collapseRuns (fun c => pyAscii.isSpace c || c == 45) false r = r :=
    collapseRuns_eq_self fun c hc => slugChar_not_spaceHyphen (hchars c hc)
  have e3 : r.filter (fun c => pyAscii.isWord c || c == 95) = r :=
    List.filter_eq_self.mpr fun c hc => slugChar_keep (hchars c hc)
  have e4 : r.map pyAscii.toLower = r :=
    map_eq_self_of_fixed fun c hc => slugChar_lower_fixed (hchars c hc)
  have e5 : stripUnderscores r = r := stripUnderscores_eq_self hhead hlast
  show slugify pyAscii false r = r
  unfold slugify
  simp only [Bool.false_eq_true, if_false]
  rw [e1, e2, e3, e4, e5]

section PyAsciiFacts

theorem pyAscii_space_not_word : ∀ c, pyIsSpace c = true → isAsciiWord c = false := by
  intro c h
  cases hb : isAsciiWord c with
  | false => rfl
  | true =>
    exfalso
    simp only [pyIsSpace, isAsciiWord, Bool.or_eq_true, Bool.and_eq_true,
      decide_eq_true_eq, beq_iff_eq] at h hb
    omega

theorem pyAscii_lower_space : ∀ c, pyIsSpace (asciiLower c) = true → pyIsSpace c = true := by
  intro c h
  unfold asciiLower at h
  split_ifs at h with h32
  · simp only [pyIsSpace, Bool.or_eq_true, Bool.and_eq_true, decide_eq_true_eq,
      beq_iff_eq] at h
    omega
  · exact h

theorem pyAscii_lower_45 : ∀ c, asciiLower c = 45 → c = 45 := by
  intro c h
  unfold asciiLower at h
  split_ifs at h with h32
  · omega
  · exact h

theorem pyAscii_lower_idem : ∀ c, asciiLower (asciiLower c) = asciiLower c := by
  intro c
  unfold asciiLower
  split_ifs with h1 h2 <;> omega

end PyAsciiFacts

/-- C10: even with `allow_unicode = True`, for any character semantics in which
whitespace characters are not word characters, underscore and the results of
lowercasing non-whitespace are not whitespace, hyphen is not a word character
and is only produced by lowercasing itself, and lowercasing is idempotent
(all true of Python's Unicode tables), `slugify` returns a string with no
whitespace, no hyphens, fully lowercased, and with no leading or trailing
underscore. -/
theorem slugify_unicode_safe (M : PyTextModel)
    (hsw : ∀ c, M.isSpace c = true → M.isWord c = false)
    (hs95 : M.isSpace 95 = false)
    (hlowSpace : ∀ c, M.isSpace (M.toLower c) = true → M.isSpace c = true)
    (hw45 : M.isWord 45 = false)
    (hlow45 : ∀ c, M.toLower c = 45 → c = 45)
    (hlowIdem : ∀ c, M.toLower (M.toLower c) = M.toLower c)
    (s : List Nat) :
    (∀ c ∈ slugify M true s, M.isSpace c = false ∧ c ≠ 45) ∧
    (slugify M true s).map M.toLower = slugify M true s ∧
    (∀ c, (slugify M true s).head? = some c → c ≠ 95) ∧
    (∀ c, (slugify M true s).reverse.head? = some c → c ≠ 95) := by
  have hmem : ∀ c ∈ slugify M true s,
      ∃ c', (M.isWord c' = true ∨ c' = 95) ∧ c = M.toLower c' := by
    intro c hc
    unfold slugify at hc
    have h4 := mem_stripUnderscores hc
    simp only [List.mem_map] at h4
    obtain ⟨c', hc', rfl⟩ := h4
    have h3 := List.mem_filter.mp hc'
    refine ⟨c', ?_, rfl⟩
    rcases Bool.or_eq_true _ _ |>.mp h3.2 with h' | h'
    · exact Or.inl h'
    · exact Or.inr (by simpa using h')
  refine ⟨?_, ?_, ?_, ?_⟩
  · intro c hc
    obtain ⟨c', hw, rfl⟩ := hmem c hc
    constructor
    · by_contra hsp
      rw [Bool.not_eq_false] at hsp
      have hspc := hlowSpace c' hsp
      rcases hw with h' | rfl
      · rw [hsw c' hspc] at h'
        exact Bool.false_ne_true h'
      · rw [hs95] at hspc
        exact Bool.false_ne_true hspc
    · intro h45
      have := hlow45 c' h45
      subst this
      rcases hw with h' | h'
      · rw [hw45] at h'
        exact Bool.false_ne_true h'
      · exact absurd h' (by norm_num)
  · refine map_eq_self_of_fixed ?_
    intro c hc
    obtain ⟨c', _, rfl⟩ := hmem c hc
    exact hlowIdem c'
  · intro c h
    unfold slugify at h
    exact stripUnderscores_head h
  · intro c h
    unfold slugify at h
    exact stripUnderscores_last h

/-- Closed instance of `slugify_unicode_safe` at Python's ASCII tables and a
concrete input mixing case, hyphens and whitespace. -/
theorem slugify_unicode_safe_witness :
    (∀ c ∈ slugify pyAscii true (strCodes " Big-Test  Str_ "),
        pyAscii.isSpace c = false ∧ c ≠ 45) ∧
    (slugify pyAscii true (strCodes " Big-Test  Str_ ")).map pyAscii.toLower
      = slugify pyAscii true (strCodes " Big-Test  Str_ ") :=
  ⟨(slugify_unicode_safe pyAscii pyAscii_space_not_word (by decide)
      pyAscii_lower_space (by decide) pyAscii_lower_45 pyAscii_lower_idem
      (strCodes " Big-Test  Str_ ")).1,
   (slugify_unicode_safe pyAscii pyAscii_space_not_word (by decide)
      pyAscii_lower_space (by decide) pyAscii_lower_45 pyAscii_lower_idem
      (strCodes " Big-Test  Str_ ")).2.1⟩

/-!
## Statement extractor (`core/extractor.py`)

`parse_problem_text` splits the text into lines, strips each, skips blank
lines, switches the current-section cursor when a line starts with a header
keyword (case-insensitive, followed by a word boundary), appends the
(possibly empty) remainder of a header line or the whole of an ordinary line
to the current section, and finally returns the sections with a nonempty
line list, each joined by newlines and stripped.
-/

/-- Python `str.strip()` (no argument): remove leading and trailing
whitespace. -/
def pyStrip (l : List Nat) : List Nat :=
  ((l.dropWhile pyIsSpace).reverse.dropWhile pyIsSpace).reverse

/-- Line-boundary characters of Python `str.splitlines`. -/
def isLineBreak (c : Nat) : Bool :=
  c == 10 || c == 11 || c == 12 || c == 13 || c == 28 || c == 29 || c == 30 ||
  c == 133 || c == 8232 || c == 8233

/-- Worker for `str.splitlines`: `acc` holds the current line reversed;
a `\r\n` pair counts as one boundary; a trailing boundary opens no
empty final line. -/
def splitlinesGo (acc : List Nat) : List Nat → List (List Nat)
  | [] => if acc.isEmpty then [] else [acc.reverse]
  | 13 :: 10 :: rest => acc.reverse :: splitlinesGo [] rest
  | c :: rest =>
    if isLineBreak c then acc.reverse :: splitlinesGo [] rest
    else splitlinesGo (c :: acc) rest

/-- Python `str.splitlines`. -/
def splitlines (l : List Nat) : List (List Nat) := splitlinesGo [] l

/-- Case-insensitive keyword at the start of `line` followed by a word
boundary (`re` pattern `keyword\b` with `re.IGNORECASE`); ASCII-exact. -/
def matchesKeyword (kw : List Nat) (line : List Nat) : Bool :=
  decide ((line.take kw.length).map asciiLower = kw) &&
  (match line.drop kw.length with
   | [] => true
   | c :: _ => !isAsciiWord c)

/-- Match a keyword with an optional plural `s` (regex `keyword s?`, greedy),
returning the matched length. -/
def matchLen (kw : List Nat) (optS : Bool) (line : List Nat) : Option Nat :=
  if optS && matchesKeyword (kw ++ [115]) line then some (kw.length + 1)
  else if matchesKeyword kw line then some kw.length
  else none

/-- `SECTION_PATTERNS["statement"]`: `^(?:statement|problem|instructions?)\b`. -/
def statementPat (line : List Nat) : Option Nat :=
  matchLen (strCodes "statement") false line <|>
  matchLen (strCodes "problem") false line <|>
  matchLen (strCodes "instruction") true line

/-- `SECTION_PATTERNS["input"]`: `^input\b`. -/
def inputPat (line : List Nat) : Option Nat :=
  matchLen (strCodes "input") false line

/-- `SECTION_PATTERNS["output"]`: `^output\b`. -/
def outputPat (line : List Nat) : Option Nat :=
  matchLen (strCodes "output") false line

/-- `SECTION_PATTERNS["constraints"]`: `^(?:constraints?|limits?)\b`. -/
def constraintsPat (line : List Nat) : Option Nat :=
  matchLen (strCodes "constraint") true line <|>
  matchLen (strCodes "limit") true line

/-- `SECTION_PATTERNS["examples"]`: `^examples?\b`. -/
def examplesPat (line : List Nat) : Option Nat :=
  matchLen (strCodes "example") true line

/-- The five section names, in `SECTION_PATTERNS` insertion order. -/
inductive SectionKey where
  | statement
  | input
  | output
  | constraints
  | examples
deriving DecidableEq

def keyName : SectionKey → String
  | .statement => "statement"
  | .input => "input"
  | .output => "output"
  | .constraints => "constraints"
  | .examples => "examples"

/-- `SECTION_PATTERNS` as an ordered association list. -/
def SECTION_PATTERNS : List (SectionKey × (List Nat → Option Nat)) :=
  [(.statement, statementPat), (.input, inputPat), (.output, outputPat),
   (.constraints, constraintsPat), (.examples, examplesPat)]

/-- The `sections` dictionary: one line list per key. -/
structure Sections where
  statement : List (List Nat)
  input : List (List Nat)
  output : List (List Nat)
  constraints : List (List Nat)
  examples : List (List Nat)
deriving DecidableEq

def emptySections : Sections := ⟨[], [], [], [], []⟩

def Sections.get (s : Sections) : SectionKey → List (List Nat)
  | .statement => s.statement
  | .input => s.input
  | .output => s.output
  | .constraints => s.constraints
  | .examples => s.examples

/-- `sections[k].append(line)`. -/
def Sections.append1 (s : Sections) (k : SectionKey) (line : List Nat) : Sections :=
  match k with
  | .statement => { s with statement := s.statement ++ [line] }
  | .input => { s with input := s.input ++ [line] }
  | .output => { s with output := s.output ++ [line] }
  | .constraints => { s with constraints := s.constraints ++ [line] }
  | .examples => { s with examples := s.examples ++ [line] }

/-- First pattern (in order) matching the line, with the matched length. -/
def findPattern : List (SectionKey × (List Nat → Option Nat)) → List Nat →
    Option (SectionKey × Nat)
  | [], _ => none
  | (k, p) :: rest, line =>
    match p line with
    | some len => some (k, len)
    | none => findPattern rest line

/-- The main loop of `parse_problem_text`: strip each raw line, skip blanks,
switch the cursor and strip the header on a match, then append the
(possibly empty) line to the current section. -/
def parseLines (cur : SectionKey) (secs : Sections) : List (List Nat) → Sections
  | [] => secs
  | raw :: rest =>
    let line := pyStrip raw
    if line.isEmpty then parseLines cur secs rest
    else
      match findPattern SECTION_PATTERNS line with
      | some (k, len) => parseLines k (secs.append1 k (pyStrip (line.drop len))) rest
      | none => parseLines cur (secs.append1 cur line) rest

/-- `"\n".join(v)`. -/
def joinNL : List (List Nat) → List Nat
  | [] => []
  | [x] => x
  | x :: xs => x ++ 10 :: joinNL xs

def sectionOrder : List SectionKey :=
  [.statement, .input, .output, .constraints, .examples]

/-- `extractor.parse_problem_text`: the final comprehension keeps keys whose
accumulated line list is nonempty and joins/strips their lines. -/
def parse_problem_text (text : List Nat) : List (String × List Nat) :=
  let secs := parseLines .statement emptySections (splitlines text)
  sectionOrder.filterMap fun k =>
    if (secs.get k).isEmpty then none
    else some (keyName k, pyStrip (joinNL (secs.get k)))

/-- C1 counterexample: on the text `"Input"` (one header line with an empty
remainder) the parser returns the key `input` mapped to the empty string, so
a section key can be present with an empty string and the empty remainder of
a header line is appended. -/
theorem parse_header_only_gives_empty_string :
    parse_problem_text (strCodes "Input") = [("input", [])] := by decide

/-- C1 amended: every key in the result had at least one line (possibly the
empty remainder of a header line) appended to it — sections with zero
accumulated lines are omitted; a header line with empty remainder appends
the empty string, so a header-only section appears mapped to the empty
string; and the section switch persists for subsequent lines. -/
theorem parse_problem_text_amended :
    (∀ text k v, (k, v) ∈ parse_problem_text text →
        ∃ key, keyName key = k ∧
          (parseLines .statement emptySections (splitlines text)).get key ≠ []) ∧
    parse_problem_text (strCodes "Input") = [("input", [])] ∧
    parse_problem_text (strCodes "Input\nAn integer n.")
      = [("input", strCodes "An integer n.")] := by
  refine ⟨?_, by decide, by decide⟩
  intro text k v h
  unfold parse_problem_text at h
  simp only [List.mem_filterMap] at h
  obtain ⟨key, _, heq⟩ := h
  refine ⟨key, ?_, ?_⟩
  · by_cases he : ((parseLines .statement emptySections (splitlines text)).get key).isEmpty
    · rw [if_pos he] at heq
      exact absurd heq (by simp)
    · rw [if_neg he] at heq
      exact congrArg Prod.fst (Option.some.inj heq)
  · intro hnil
    rw [hnil] at heq
    simp at heq

/-- Closed instance of the general part of `parse_problem_text_amended`. -/
theorem parse_problem_text_amended_witness :
    ∃ key, keyName key = "input" ∧
      (parseLines .statement emptySections (splitlines (strCodes "Input"))).get key
        ≠ [] :=
  parse_problem_text_amended.1 (strCodes "Input") "input" [] (by decide)

/-!
## Decimal numerals

Python's `str(int)` (used by the f-strings building `solution_<i>.py` and by
`json.dumps` for integers), modelled as codepoint lists, together with the
value function needed for injectivity and for the JSON number parser.
-/

/-- Digits of `n`, most significant first, prepended to `acc`. -/
def natStrGo (n : Nat) (acc : List Nat) : List Nat :=
  if n < 10 then (48 + n) :: acc
  else natStrGo (n / 10) ((48 + n % 10) :: acc)
termination_by n
decreasing_by exact Nat.div_lt_self (by omega) (by omega)

/-- `str(n)` for a natural number. -/
def natStr (n : Nat) : List Nat := natStrGo n []

def isDigitCode (c : Nat) : Bool := 48 ≤ c && c ≤ 57

/-- Value of a digit string (most significant first). -/
def digitsVal (l : List Nat) : Nat := l.foldl (fun a c => a * 10 + (c - 48)) 0

theorem natStrGo_append (n : Nat) :
    ∀ acc, natStrGo n acc = natStrGo n [] ++ acc := by
  induction n using Nat.strong_induction_on with
  | _ n ih =>
    intro acc
    by_cases h : n < 10
    · rw [natStrGo, if_pos h, natStrGo, if_pos h]
      rfl
    · rw [natStrGo, if_neg h]
      conv_rhs => rw [natStrGo, if_neg h]
      have hlt : n / 10 < n := Nat.div_lt_self (by omega) (by omega)
      rw [ih _ hlt ((48 + n % 10) :: acc), ih _ hlt [48 + n % 10]]
      simp

theorem natStr_digits {n : Nat} : ∀ c ∈ natStr n, isDigitCode c = true := by
  induction n using Nat.strong_induction_on with
  | _ n ih =>
    intro c hc
    unfold natStr at hc
    by_cases h : n < 10
    · rw [natStrGo, if_pos h] at hc
      rcases List.mem_singleton.mp hc with rfl
      simp only [isDigitCode, Bool.and_eq_true, decide_eq_true_eq]
      omega
    · rw [natStrGo, if_neg h, natStrGo_append] at hc
      rcases List.mem_append.mp hc with hc' | hc'
      · exact ih _ (Nat.div_lt_self (by omega) (by omega)) c hc'
      · rcases List.mem_singleton.mp hc' with rfl
        simp only [isDigitCode, Bool.and_eq_true, decide_eq_true_eq]
        omega

theorem natStr_ne_nil (n : Nat) : natStr n ≠ [] := by
  unfold natStr
  by_cases h : n < 10
  · rw [natStrGo, if_pos h]
    simp
  · rw [natStrGo, if_neg h, natStrGo_append]
    simp

theorem digitsVal_natStr (n : Nat) : digitsVal (natStr n) = n := by
  induction n using Nat.strong_induction_on with
  | _ n ih =>
    by_cases h : n < 10
    · unfold natStr
      rw [natStrGo, if_pos h]
      simp [digitsVal]
    · unfold natStr
      rw [natStrGo, if_neg h, natStrGo_append]
      have hval := ih (n / 10) (Nat.div_lt_self (by omega) (by omega))
      unfold digitsVal at hval ⊢
      unfold natStr at hval
      rw [List.foldl_append, hval]
      simp only [List.foldl_cons, List.foldl_nil]
      omega

theorem natStr_inj {a b : Nat} (h : natStr a = natStr b) : a = b := by
  have := congrArg digitsVal h
  rwa [digitsVal_natStr, digitsVal_natStr] at this

/-!
## JSON model (`utils.write_json` / `utils.read_json`, and the table literal
of `test_builder.build_pytest_file`)

`JValue` is the tree of JSON-serializable values (numbers restricted to
integers: the repository's test-case records and problem dictionaries carry
strings, integers, booleans, nulls, sequences and objects; floating point is
outside the model).  `dumpV` models `json.dump(..., indent=2)` — with
`ensure_ascii` both `False` (as in `write_json`) and `True` (the default, as
in `build_pytest_file`) — and the `parse*` functions model the `json.load`
recursive-descent scanner, with a fuel argument standing in for the call
stack. -/

inductive JValue where
  | null
  | bool (b : Bool)
  | num (n : Int)
  | str (s : List Nat)
  | arr (xs : List JValue)
  | obj (kvs : List (List Nat × JValue))

mutual

def jbeq : JValue → JValue → Bool
  | .null, .null => true
  | .bool a, .bool b => a == b
  | .num a, .num b => a == b
  | .str a, .str b => a == b
  | .arr a, .arr b => jbeqList a b
  | .obj a, .obj b => jbeqPairs a b
  | _, _ => false

def jbeqList : List JValue → List JValue → Bool
  | [], [] => true
  | x :: xs, y :: ys => jbeq x y && jbeqList xs ys
  | _, _ => false

def jbeqPairs : List (List Nat × JValue) → List (List Nat × JValue) → Bool
  | [], [] => true
  | (k1, v1) :: xs, (k2, v2) :: ys => k1 == k2 && jbeq v1 v2 && jbeqPairs xs ys
  | _, _ => false

end

mutual

theorem jbeq_iff_eq : ∀ a b : JValue, jbeq a b = true ↔ a = b
  | .null, .null => by simp [jbeq]
  | .bool _, .bool _ => by simp [jbeq]
  | .num _, .num _ => by simp [jbeq]
  | .str _, .str _ => by simp [jbeq]
  | .arr a, .arr b => by simp [jbeq, jbeqList_iff_eq a b]
  | .obj a, .obj b => by simp [jbeq, jbeqPairs_iff_eq a b]
  | .null, .bool _ | .null, .num _ | .null, .str _ | .null, .arr _ | .null, .obj _
  | .bool _, .null | .bool _, .num _ | .bool _, .str _ | .bool _, .arr _
  | .bool _, .obj _
  | .num _, .null | .num _, .bool _ | .num _, .str _ | .num _, .arr _
  | .num _, .obj _
  | .str _, .null | .str _, .bool _ | .str _, .num _ | .str _, .arr _
  | .str _, .obj _
  | .arr _, .null | .arr _, .bool _ | .arr _, .num _ | .arr _, .str _
  | .arr _, .obj _
  | .obj _, .null | .obj _, .bool _ | .obj _, .num _ | .obj _, .str _
  | .obj _, .arr _ => by simp [jbeq]

theorem jbeqList_iff_eq : ∀ a b : List JValue, jbeqList a b = true ↔ a = b
  | [], [] => by simp [jbeqList]
  | x :: xs, y :: ys => by
    simp [jbeqList, jbeq_iff_eq x y, jbeqList_iff_eq xs ys]
  | [], _ :: _ => by simp [jbeqList]
  | _ :: _, [] => by simp [jbeqList]

theorem jbeqPairs_iff_eq :
    ∀ a b : List (List Nat × JValue), jbeqPairs a b = true ↔ a = b
  | [], [] => by simp [jbeqPairs]
  | (k1, v1) :: xs, (k2, v2) :: ys => by
    simp [jbeqPairs, jbeq_iff_eq v1 v2, jbeqPairs_iff_eq xs ys, and_assoc]
  | [], _ :: _ => by simp [jbeqPairs]
  | _ :: _, [] => by simp [jbeqPairs]

end

instance : DecidableEq JValue := fun a b =>
  decidable_of_iff (jbeq a b = true) (jbeq_iff_eq a b)

mutual

def jsizeV : JValue → Nat
  | .null => 1
  | .bool _ => 1
  | .num _ => 1
  | .str _ => 1
  | .arr xs => 1 + jsizeL xs
  | .obj kvs => 1 + jsizeO kvs

def jsizeL : List JValue → Nat
  | [] => 1
  | x :: xs => 1 + jsizeV x + jsizeL xs

def jsizeO : List (List Nat × JValue) → Nat
  | [] => 1
  | (_, v) :: kvs => 1 + jsizeV v + jsizeO kvs

end

/-- `indent=2`: the indentation prefix at nesting level `lvl`. -/
def indent (lvl : Nat) : List Nat := List.replicate (2 * lvl) 32

def hexDigit (n : Nat) : Nat := if n < 10 then 48 + n else 87 + n

/-- Escaping of one string character by `json.dumps`: `\"`, `\\`, the short
control escapes, `\u00xx` for other control characters, and — with
`ensure_ascii=True` — `\uxxxx` (with surrogate pairs) for non-ASCII. -/
def escCode (ea : Bool) (c : Nat) : List Nat :=
  if c = 34 then [92, 34]
  else if c = 92 then [92, 92]
  else if c = 10 then [92, 110]
  else if c = 9 then [92, 116]
  else if c = 13 then [92, 114]
  else if c = 8 then [92, 98]
  else if c = 12 then [92, 102]
  else if c < 32 then [92, 117, 48, 48, hexDigit (c / 16), hexDigit (c % 16)]
  else if ea && 127 ≤ c then
    if c < 65536 then
      [92, 117, hexDigit (c / 4096 % 16), hexDigit (c / 256 % 16),
       hexDigit (c / 16 % 16), hexDigit (c % 16)]
    else
      let v := c - 65536
      let hi := 55296 + v / 1024
      let lo := 56320 + v % 1024
      [92, 117, hexDigit (hi / 4096 % 16), hexDigit (hi / 256 % 16),
       hexDigit (hi / 16 % 16), hexDigit (hi % 16),
       92, 117, hexDigit (lo / 4096 % 16), hexDigit (lo / 256 % 16),
       hexDigit (lo / 16 % 16), hexDigit (lo % 16)]
  else [c]

def escList (ea : Bool) : List Nat → List Nat
  | [] => []
  | c :: cs => escCode ea c ++ escList ea cs

/-- Python `str(int)`: decimal digits, `-`-prefixed when negative. -/
def intRepr : Int → List Nat
  | .ofNat m => natStr m
  | .negSucc m => 45 :: natStr (m + 1)

mutual

/-- `json.dumps(v, indent=2)` at nesting level `lvl` (no leading indent;
containers indent their items by two further spaces, close on a fresh
line at the container's own level, and render empty as `[]` / `{}`). -/
def dumpV (ea : Bool) (lvl : Nat) : JValue → List Nat
  | .null => [110, 117, 108, 108]
  | .bool true => [116, 114, 117, 101]
  | .bool false => [102, 97, 108, 115, 101]
  | .num n => intRepr n
  | .str s => 34 :: escList ea s ++ [34]
  | .arr [] => [91, 93]
  | .arr (x :: xs) =>
      91 :: 10 :: indent (lvl + 1) ++ dumpV ea (lvl + 1) x ++
        dumpElems ea (lvl + 1) xs ++ 10 :: indent lvl ++ [93]
  | .obj [] => [123, 125]
  | .obj (kv :: kvs) =>
      123 :: 10 :: indent (lvl + 1) ++ dumpKV ea (lvl + 1) kv ++
        dumpPairs ea (lvl + 1) kvs ++ 10 :: indent lvl ++ [125]

/-- The items after the first of a nonempty array: `",\n" ++ indent ++ item`. -/
def dumpElems (ea : Bool) (lvl : Nat) : List JValue → List Nat
  | [] => []
  | x :: xs => 44 :: 10 :: indent lvl ++ dumpV ea lvl x ++ dumpElems ea lvl xs

/-- One object entry: `"key": value`. -/
def dumpKV (ea : Bool) (lvl : Nat) : List Nat × JValue → List Nat
  | (k, v) => 34 :: escList ea k ++ 34 :: 58 :: 32 :: dumpV ea lvl v

/-- The entries after the first of a nonempty object. -/
def dumpPairs (ea : Bool) (lvl : Nat) : List (List Nat × JValue) → List Nat
  | [] => []
  | kv :: kvs => 44 :: 10 :: indent lvl ++ dumpKV ea lvl kv ++ dumpPairs ea lvl kvs

end

/-- JSON inter-token whitespace accepted by `json.load`. -/
def jws (c : Nat) : Bool := c == 32 || c == 9 || c == 10 || c == 13

def skipWs (l : List Nat) : List Nat := l.dropWhile jws

def hexVal (c : Nat) : Option Nat :=
  if 48 ≤ c ∧ c ≤ 57 then some (c - 48)
  else if 97 ≤ c ∧ c ≤ 102 then some (c - 87)
  else if 65 ≤ c ∧ c ≤ 70 then some (c - 55)
  else none

/-- The string scanner of `json.load`, after the opening quote: collect
until the closing quote, decoding backslash escapes, rejecting raw control
characters and unterminated input.  (Surrogate-pair recombination for
codepoints beyond the BMP is not modelled; `write_json`'s output never
contains `\u` escapes above `001f`.) -/
def parseString (acc : List Nat) : List Nat → Option (List Nat × List Nat)
  | [] => none
  | c :: rest =>
    if c = 34 then some (acc.reverse, rest)
    else if c = 92 then
      match rest with
      | [] => none
      | e :: rest2 =>
        if e = 34 then parseString (34 :: acc) rest2
        else if e = 92 then parseString (92 :: acc) rest2
        else if e = 47 then parseString (47 :: acc) rest2
        else if e = 98 then parseString (8 :: acc) rest2
        else if e = 102 then parseString (12 :: acc) rest2
        else if e = 110 then parseString (10 :: acc) rest2
        else if e = 114 then parseString (13 :: acc) rest2
        else if e = 116 then parseString (9 :: acc) rest2
        else if e = 117 then
          match rest2 with
          | h1 :: h2 :: h3 :: h4 :: rest3 =>
            match hexVal h1, hexVal h2, hexVal h3, hexVal h4 with
            | some a, some b, some c', some d =>
              parseString ((((a * 16 + b) * 16 + c') * 16 + d) :: acc) rest3
            | _, _, _, _ => none
          | _ => none
        else none
    else if c < 32 then none
    else parseString (c :: acc) rest

/-- The number scanner of `json.load`, restricted to integers: an optional
minus sign followed by at least one digit, consuming digits greedily. -/
def parseNum (l : List Nat) : Option (JValue × List Nat) :=
  match l with
  | [] => none
  | c :: rest =>
    if c = 45 then
      match rest.takeWhile isDigitCode with
      | [] => none
      | ds => some (.num (-(digitsVal ds : Int)), rest.dropWhile isDigitCode)
    else
      match (c :: rest).takeWhile isDigitCode with
      | [] => none
      | ds => some (.num (digitsVal ds), (c :: rest).dropWhile isDigitCode)

mutual

/-- The value scanner of `json.load`: skip whitespace, then dispatch on the
first character — string, array, object, `null`, `true`, `false`, or a
number.  `fuel` bounds the recursion depth. -/
def parseVal : Nat → List Nat → Option (JValue × List Nat)
  | 0, _ => none
  | fuel + 1, l =>
    match skipWs l with
    | [] => none
    | c :: rest =>
      if c = 34 then (parseString [] rest).map fun p => (.str p.1, p.2)
      else if c = 91 then
        match skipWs rest with
        | 93 :: r2 => some (.arr [], r2)
        | _ => do
          let (v, r2) ← parseVal fuel rest
          let (vs, r3) ← parseTail fuel r2
          some (.arr (v :: vs), r3)
      else if c = 123 then
        match skipWs rest with
        | 125 :: r2 => some (.obj [], r2)
        | _ => do
          let (kv, r2) ← parsePair fuel rest
          let (kvs, r3) ← parsePTail fuel r2
          some (.obj (kv :: kvs), r3)
      else if c = 110 then
        if rest.take 3 = [117, 108, 108] then some (.null, rest.drop 3) else none
      else if c = 116 then
        if rest.take 3 = [114, 117, 101] then some (.bool true, rest.drop 3) else none
      else if c = 102 then
        if rest.take 4 = [97, 108, 115, 101] then some (.bool false, rest.drop 4)
        else none
      else parseNum (c :: rest)

/-- After one array element: `,` and a further element, or `]`. -/
def parseTail : Nat → List Nat → Option (List JValue × List Nat)
  | 0, _ => none
  | fuel + 1, l =>
    match skipWs l with
    | 93 :: rest => some ([], rest)
    | 44 :: rest => do
      let (v, r2) ← parseVal fuel rest
      let (vs, r3) ← parseTail fuel r2
      some (v :: vs, r3)
    | _ => none

/-- One `"key": value` entry of an object. -/
def parsePair : Nat → List Nat → Option ((List Nat × JValue) × List Nat)
  | 0, _ => none
  | fuel + 1, l =>
    match skipWs l with
    | 34 :: rest => do
      let (k, r2) ← parseString [] rest
      match skipWs r2 with
      | 58 :: r3 => do
        let (v, r4) ← parseVal fuel r3
        some ((k, v), r4)
      | _ => none
    | _ => none

/-- After one object entry: `,` and a further entry, or `}`. -/
def parsePTail : Nat → List Nat → Option (List (List Nat × JValue) × List Nat)
  | 0, _ => none
  | fuel + 1, l =>
    match skipWs l with
    | 125 :: rest => some ([], rest)
    | 44 :: rest => do
      let (kv, r2) ← parsePair fuel rest
      let (kvs, r3) ← parsePTail fuel r2
      some (kv :: kvs, r3)
    | _ => none

end

/-- The character after a serialized value must not be a digit, or the
number scanner would consume it (true at every position `dumpV` creates). -/
def numOk (l : List Nat) : Bool :=
  match l with
  | [] => true
  | c :: _ => !isDigitCode c

section RoundTripLemmas

theorem jsizeV_pos (v : JValue) : 1 ≤ jsizeV v := by
  cases v <;> simp [jsizeV]

theorem jsizeL_pos (xs : List JValue) : 1 ≤ jsizeL xs := by
  cases xs with
  | nil => simp [jsizeL]
  | cons x xs => simp only [jsizeL]; omega

theorem jsizeO_pos (kvs : List (List Nat × JValue)) : 1 ≤ jsizeO kvs := by
  cases kvs with
  | nil => simp [jsizeO]
  | cons kv kvs =>
    rcases kv with ⟨k, v⟩
    simp only [jsizeO]
    omega

theorem skipWs_cons_not {c : Nat} {l : List Nat} (h : jws c = false) :
    skipWs (c :: l) = c :: l := by
  unfold skipWs
  rw [List.dropWhile_cons_of_neg (by simp [h])]

theorem skipWs_ws_append {a : List Nat} (b : List Nat)
    (h : ∀ c ∈ a, jws c = true) : skipWs (a ++ b) = skipWs b := by
  induction a with
  | nil => rfl
  | cons x xs ih =>
    have hx : jws x = true := h x (List.mem_cons_self _ _)
    unfold skipWs
    rw [List.cons_append, List.dropWhile_cons_of_pos (by simp [hx])]
    exact ih fun c hc => h c (List.mem_cons_of_mem _ hc)

theorem indent_ws (lvl : Nat) : ∀ c ∈ indent lvl, jws c = true := by
  intro c hc
  unfold indent at hc
  rw [List.eq_of_mem_replicate hc]
  rfl

theorem parseVal_ws {a : List Nat} (fuel : Nat) (b : List Nat)
    (h : ∀ c ∈ a, jws c = true) : parseVal fuel (a ++ b) = parseVal fuel b := by
  cases fuel with
  | zero => rfl
  | succ fuel =>
    show parseVal (fuel + 1) (a ++ b) = parseVal (fuel + 1) b
    rw [parseVal, parseVal, skipWs_ws_append b h]

theorem parseTail_ws {a : List Nat} (fuel : Nat) (b : List Nat)
    (h : ∀ c ∈ a, jws c = true) : parseTail fuel (a ++ b) = parseTail fuel b := by
  cases fuel with
  | zero => rfl
  | succ fuel =>
    show parseTail (fuel + 1) (a ++ b) = parseTail (fuel + 1) b
    rw [parseTail, parseTail, skipWs_ws_append b h]

theorem parsePair_ws {a : List Nat} (fuel : Nat) (b : List Nat)
    (h : ∀ c ∈ a, jws c = true) : parsePair fuel (a ++ b) = parsePair fuel b := by
  cases fuel with
  | zero => rfl
  | succ fuel =>
    show parsePair (fuel + 1) (a ++ b) = parsePair (fuel + 1) b
    rw [parsePair, parsePair, skipWs_ws_append b h]

theorem parsePTail_ws {a : List Nat} (fuel : Nat) (b : List Nat)
    (h : ∀ c ∈ a, jws c = true) : parsePTail fuel (a ++ b) = parsePTail fuel b := by
  cases fuel with
  | zero => rfl
  | succ fuel =>
    show parsePTail (fuel + 1) (a ++ b) = parsePTail (fuel + 1) b
    rw [parsePTail, parsePTail, skipWs_ws_append b h]

theorem natStr_cons (n : Nat) :
    ∃ d ds, natStr n = d :: ds ∧ isDigitCode d = true := by
  rcases hn : natStr n with _ | ⟨d, ds⟩
  · exact absurd hn (natStr_ne_nil n)
  · exact ⟨d, ds, rfl, natStr_digits d (hn ▸ List.mem_cons_self d ds)⟩

theorem dumpV_head (ea : Bool) (lvl : Nat) (v : JValue) :
    ∃ c cs, dumpV ea lvl v = c :: cs ∧ jws c = false ∧ c ≠ 93 ∧ c ≠ 125 := by
  cases v with
  | null => exact ⟨110, _, rfl, rfl, by omega, by omega⟩
  | bool b => cases b with
    | true => exact ⟨116, _, rfl, rfl, by omega, by omega⟩
    | false => exact ⟨102, _, rfl, rfl, by omega, by omega⟩
  | num n =>
    cases n with
    | ofNat m =>
      obtain ⟨d, ds, hds, hdig⟩ := natStr_cons m
      have hd : 48 ≤ d ∧ d ≤ 57 := by simpa [isDigitCode] using hdig
      refine ⟨d, ds, ?_, ?_, by omega, by omega⟩
      · simp [dumpV, intRepr, hds]
      · cases hb : jws d with
        | false => rfl
        | true =>
          exfalso
          simp only [jws, Bool.or_eq_true, beq_iff_eq] at hb
          omega
    | negSucc m => exact ⟨45, _, rfl, rfl, by omega, by omega⟩
  | str s => exact ⟨34, _, rfl, rfl, by omega, by omega⟩
  | arr xs =>
    cases xs with
    | nil => exact ⟨91, _, rfl, rfl, by omega, by omega⟩
    | cons x xs => exact ⟨91, _, rfl, rfl, by omega, by omega⟩
  | obj kvs =>
    cases kvs with
    | nil => exact ⟨123, _, rfl, rfl, by omega, by omega⟩
    | cons kv kvs =>
      rcases kv with ⟨k, v⟩
      exact ⟨123, _, rfl, rfl, by omega, by omega⟩

theorem takeWhile_app_all {p : Nat → Bool} {a b : List Nat}
    (ha : ∀ c ∈ a, p c = true) (hb : ∀ c, b.head? = some c → p c = false) :
    (a ++ b).takeWhile p = a := by
  induction a with
  | nil =>
    cases b with
    | nil => rfl
    | cons x xs =>
      rw [List.nil_append, List.takeWhile_cons_of_neg (by simp [hb x rfl])]
  | cons x xs ih =>
    rw [List.cons_append,
      List.takeWhile_cons_of_pos (by simp [ha x (List.mem_cons_self _ _)])]
    exact congrArg (x :: ·) (ih fun c hc => ha c (List.mem_cons_of_mem _ hc))

theorem dropWhile_app_all {p : Nat → Bool} {a b : List Nat}
    (ha : ∀ c ∈ a, p c = true) (hb : ∀ c, b.head? = some c → p c = false) :
    (a ++ b).dropWhile p = b := by
  induction a with
  | nil =>
    cases b with
    | nil => rfl
    | cons x xs =>
      rw [List.nil_append, List.dropWhile_cons_of_neg (by simp [hb x rfl])]
  | cons x xs ih =>
    rw [List.cons_append,
      List.dropWhile_cons_of_pos (by simp [ha x (List.mem_cons_self _ _)])]
    exact ih fun c hc => ha c (List.mem_cons_of_mem _ hc)

theorem hexVal_hexDigit : ∀ n < 16, hexVal (hexDigit n) = some n := by decide

theorem numOk_head {l : List Nat} (h : numOk l = true) :
    ∀ c, l.head? = some c → isDigitCode c = false := by
  intro c hc
  cases l with
  | nil => simp at hc
  | cons x xs =>
    simp only [List.head?_cons, Option.some.injEq] at hc
    subst hc
    simpa [numOk] using h

/-- The string scanner undoes `escList false` exactly, leaving the text after
the closing quote untouched. -/
theorem parseString_dump (s : List Nat) :
    ∀ acc rest, parseString acc (escList false s ++ 34 :: rest)
      = some (acc.reverse ++ s, rest) := by
  induction s with
  | nil =>
    intro acc rest
    simp only [escList, List.nil_append]
    rw [parseString.eq_def]
    norm_num
  | cons c cs ih =>
    intro acc rest
    rw [escList, List.append_assoc]
    by_cases h34 : c = 34
    · subst h34
      rw [show escCode false 34 = [92, 34] from rfl]
      simp only [List.cons_append, List.nil_append]
      rw [parseString.eq_def]
      norm_num
      rw [ih (34 :: acc) rest]
      simp
    · by_cases h92 : c = 92
      · subst h92
        rw [show escCode false 92 = [92, 92] from rfl]
        simp only [List.cons_append, List.nil_append]
        rw [parseString.eq_def]
        norm_num
        rw [ih (92 :: acc) rest]
        simp
      · by_cases h10 : c = 10
        · subst h10
          rw [show escCode false 10 = [92, 110] from rfl]
          simp only [List.cons_append, List.nil_append]
          rw [parseString.eq_def]
          norm_num
          rw [ih (10 :: acc) rest]
          simp
        · by_cases h9 : c = 9
          · subst h9
            rw [show escCode false 9 = [92, 116] from rfl]
            simp only [List.cons_append, List.nil_append]
            rw [parseString.eq_def]
            norm_num
            rw [ih (9 :: acc) rest]
            simp
          · by_cases h13 : c = 13
            · subst h13
              rw [show escCode false 13 = [92, 114] from rfl]
              simp only [List.cons_append, List.nil_append]
              rw [parseString.eq_def]
              norm_num
              rw [ih (13 :: acc) rest]
              simp
            · by_cases h8 : c = 8
              · subst h8
                rw [show escCode false 8 = [92, 98] from rfl]
                simp only [List.cons_append, List.nil_append]
                rw [parseString.eq_def]
                norm_num
                rw [ih (8 :: acc) rest]
                simp
              · by_cases h12 : c = 12
                · subst h12
                  rw [show escCode false 12 = [92, 102] from rfl]
                  simp only [List.cons_append, List.nil_append]
                  rw [parseString.eq_def]
                  norm_num
                  rw [ih (12 :: acc) rest]
                  simp
                · by_cases hlt : c < 32
                  · rw [show escCode false c
                        = [92, 117, 48, 48, hexDigit (c / 16), hexDigit (c % 16)] by
                      unfold escCode
                      rw [if_neg h34, if_neg h92, if_neg h10, if_neg h9, if_neg h13,
                        if_neg h8, if_neg h12, if_pos hlt]]
                    simp only [List.cons_append, List.nil_append]
                    rw [parseString.eq_def]
                    norm_num
                    rw [show hexVal 48 = some 0 from rfl,
                      hexVal_hexDigit (c / 16) (by omega),
                      hexVal_hexDigit (c % 16) (by omega)]
                    simp only []
                    have hval : ((0 * 16 + 0) * 16 + c / 16) * 16 + c % 16 = c := by
                      omega
                    rw [hval, ih (c :: acc) rest]
                    simp
                  · rw [show escCode false c = [c] by
                      unfold escCode
                      rw [if_neg h34, if_neg h92, if_neg h10, if_neg h9, if_neg h13,
                        if_neg h8, if_neg h12, if_neg hlt]
                      simp]
                    simp only [List.cons_append, List.nil_append]
                    rw [parseString.eq_def]
                    simp only []
                    rw [if_neg h34, if_neg h92, if_neg (by omega : ¬c < 32),
                      ih (c :: acc) rest]
                    simp

/-- The number scanner undoes `intRepr`, provided the following character is
not a digit. -/
theorem parseNum_intRepr (n : Int) (rest : List Nat) (h : numOk rest = true) :
    parseNum (intRepr n ++ rest) = some (.num n, rest) := by
  cases n with
  | ofNat m =>
    obtain ⟨d, ds, hds, hdig⟩ := natStr_cons m
    have hd : 48 ≤ d ∧ d ≤ 57 := by simpa [isDigitCode] using hdig
    rw [show intRepr (Int.ofNat m) = natStr m from rfl, hds, List.cons_append,
      parseNum]
    rw [if_neg (by omega : ¬d = 45)]
    have htake : (d :: (ds ++ rest)).takeWhile isDigitCode = d :: ds := by
      have := takeWhile_app_all (p := isDigitCode) (a := d :: ds) (b := rest)
        (fun c hc => natStr_digits c (hds ▸ hc)) (numOk_head h)
      simpa using this
    have hdrop : (d :: (ds ++ rest)).dropWhile isDigitCode = rest := by
      have := dropWhile_app_all (p := isDigitCode) (a := d :: ds) (b := rest)
        (fun c hc => natStr_digits c (hds ▸ hc)) (numOk_head h)
      simpa using this
    rw [htake, hdrop]
    simp only []
    have : digitsVal (d :: ds) = m := hds ▸ digitsVal_natStr m
    rw [this]
    norm_num
  | negSucc m =>
    obtain ⟨d, ds, hds, hdig⟩ := natStr_cons (m + 1)
    rw [show intRepr (Int.negSucc m) = 45 :: natStr (m + 1) from rfl,
      List.cons_append, parseNum, if_pos rfl, hds, List.cons_append]
    have htake : (d :: (ds ++ rest)).takeWhile isDigitCode = d :: ds := by
      have := takeWhile_app_all (p := isDigitCode) (a := d :: ds) (b := rest)
        (fun c hc => natStr_digits c (hds ▸ hc)) (numOk_head h)
      simpa using this
    have hdrop : (d :: (ds ++ rest)).dropWhile isDigitCode = rest := by
      have := dropWhile_app_all (p := isDigitCode) (a := d :: ds) (b := rest)
        (fun c hc => natStr_digits c (hds ▸ hc)) (numOk_head h)
      simpa using this
    rw [htake, hdrop]
    simp only []
    have hval : digitsVal (d :: ds) = m + 1 := hds ▸ digitsVal_natStr (m + 1)
    rw [hval]
    have : (-(↑(m + 1) : Int)) = Int.negSucc m := by
      rw [Int.negSucc_eq]
      push_cast
      ring
    rw [this]

theorem nlIndent_ws (lvl : Nat) : ∀ c ∈ (10 : Nat) :: indent lvl, jws c = true := by
  intro c hc
  rcases List.mem_cons.mp hc with rfl | hc
  · rfl
  · exact indent_ws lvl c hc

theorem parseVal_nl_indent (fuel lvl : Nat) (b : List Nat) :
    parseVal fuel (10 :: (indent lvl ++ b)) = parseVal fuel b := by
  have := parseVal_ws (a := 10 :: indent lvl) fuel b (nlIndent_ws lvl)
  simpa using this

theorem parsePair_nl_indent (fuel lvl : Nat) (b : List Nat) :
    parsePair fuel (10 :: (indent lvl ++ b)) = parsePair fuel b := by
  have := parsePair_ws (a := 10 :: indent lvl) fuel b (nlIndent_ws lvl)
  simpa using this

theorem skipWs_nl_indent (lvl : Nat) (b : List Nat) :
    skipWs (10 :: (indent lvl ++ b)) = skipWs b := by
  have := skipWs_ws_append (a := 10 :: indent lvl) b (nlIndent_ws lvl)
  simpa using this

theorem parseVal_space (fuel : Nat) (b : List Nat) :
    parseVal fuel (32 :: b) = parseVal fuel b := by
  have := parseVal_ws (a := [32]) fuel b (by
    intro c hc
    rcases List.mem_singleton.mp hc with rfl
    rfl)
  simpa using this

theorem numOk_dumpElems (lvl : Nat) (xs : List JValue) (z : List Nat) :
    numOk (dumpElems false lvl xs ++ 10 :: z) = true := by
  rcases xs with _ | ⟨x, xs⟩ <;> rfl

theorem numOk_dumpPairs (lvl : Nat) (kvs : List (List Nat × JValue)) (z : List Nat) :
    numOk (dumpPairs false lvl kvs ++ 10 :: z) = true := by
  rcases kvs with _ | ⟨⟨k, v⟩, kvs⟩ <;> rfl

theorem bind_some_eq {α β : Type} (a : α) (f : α → Option β) :
    ((some a : Option α) >>= f) = f a := rfl

/-- The scanner inverts the serializer: at any recursion budget at least the
size of the value, parsing the dumped text yields the value back and leaves
the following text untouched (stated simultaneously for values, array item
lists and object entry lists; array/object tails carry the closing
newline-indent-bracket text the serializer emits). -/
theorem parse_dump_all : ∀ fuel : Nat,
    (∀ v lvl rest, jsizeV v ≤ fuel → numOk rest = true →
       parseVal fuel (dumpV false lvl v ++ rest) = some (v, rest)) ∧
    (∀ xs lvl l0 rest, jsizeL xs ≤ fuel →
       parseTail fuel (dumpElems false lvl xs ++ (10 :: (indent l0 ++ (93 :: rest))))
         = some (xs, rest)) ∧
    (∀ k v lvl rest, 1 + jsizeV v ≤ fuel → numOk rest = true →
       parsePair fuel (dumpKV false lvl (k, v) ++ rest) = some ((k, v), rest)) ∧
    (∀ kvs lvl l0 rest, jsizeO kvs ≤ fuel →
       parsePTail fuel
           (dumpPairs false lvl kvs ++ (10 :: (indent l0 ++ (125 :: rest))))
         = some (kvs, rest)) := by
  intro fuel
  induction fuel with
  | zero =>
    refine ⟨?_, ?_, ?_, ?_⟩
    · intro v lvl rest hsz _
      exact absurd hsz (by have := jsizeV_pos v; omega)
    · intro xs lvl l0 rest hsz
      exact absurd hsz (by have := jsizeL_pos xs; omega)
    · intro k v lvl rest hsz _
      exact absurd hsz (by have := jsizeV_pos v; omega)
    · intro kvs lvl l0 rest hsz
      exact absurd hsz (by have := jsizeO_pos kvs; omega)
  | succ fuel IH =>
    obtain ⟨IH1, IH2, IH3, IH4⟩ := IH
    have P1 : ∀ v lvl rest, jsizeV v ≤ fuel + 1 → numOk rest = true →
        parseVal (fuel + 1) (dumpV false lvl v ++ rest) = some (v, rest) := by
      intro v lvl rest hsz hnum
      cases v with
      | null =>
        rw [show dumpV false lvl .null ++ rest = 110 :: 117 :: 108 :: 108 :: rest
            by simp [dumpV], parseVal, skipWs_cons_not (by decide)]
        norm_num
      | bool b =>
        cases b with
        | true =>
          rw [show dumpV false lvl (.bool true) ++ rest
              = 116 :: 114 :: 117 :: 101 :: rest by simp [dumpV],
            parseVal, skipWs_cons_not (by decide)]
          norm_num
        | false =>
          rw [show dumpV false lvl (.bool false) ++ rest
              = 102 :: 97 :: 108 :: 115 :: 101 :: rest by simp [dumpV],
            parseVal, skipWs_cons_not (by decide)]
          norm_num
      | num n =>
        have hpn := parseNum_intRepr n rest hnum
        cases n with
        | ofNat m =>
          obtain ⟨d, ds, hds, hdig⟩ := natStr_cons m
          have hd : 48 ≤ d ∧ d ≤ 57 := by simpa [isDigitCode] using hdig
          have hjws : jws d = false := by
            cases hb : jws d with
            | false => rfl
            | true =>
              exfalso
              simp only [jws, Bool.or_eq_true, beq_iff_eq] at hb
              omega
          rw [show dumpV false lvl (.num (Int.ofNat m)) = natStr m from rfl, hds,
            List.cons_append, parseVal, skipWs_cons_not hjws]
          simp only []
          rw [if_neg (by omega : ¬d = 34), if_neg (by omega : ¬d = 91),
            if_neg (by omega : ¬d = 123), if_neg (by omega : ¬d = 110),
            if_neg (by omega : ¬d = 116), if_neg (by omega : ¬d = 102)]
          rw [show intRepr (Int.ofNat m) = natStr m from rfl, hds,
            List.cons_append] at hpn
          exact hpn
        | negSucc m =>
          rw [show dumpV false lvl (.num (Int.negSucc m)) ++ rest
              = 45 :: (natStr (m + 1) ++ rest) by simp [dumpV, intRepr],
            parseVal, skipWs_cons_not (by decide)]
          norm_num
          rw [show intRepr (Int.negSucc m) ++ rest
              = 45 :: (natStr (m + 1) ++ rest) by simp [intRepr]] at hpn
          exact hpn
      | str s =>
        rw [show dumpV false lvl (.str s) ++ rest
            = 34 :: (escList false s ++ 34 :: rest) by simp [dumpV],
          parseVal, skipWs_cons_not (by decide)]
        norm_num
        rw [parseString_dump s [] rest]
        simp
      | arr xs =>
        cases xs with
        | nil =>
          rw [show dumpV false lvl (.arr []) ++ rest = 91 :: 93 :: rest
              by simp [dumpV], parseVal, skipWs_cons_not (by decide)]
          norm_num
          rw [skipWs_cons_not (by decide)]
        | cons x xs =>
          simp only [jsizeV, jsizeL] at hsz
          have hx : jsizeV x ≤ fuel := by have := jsizeL_pos xs; omega
          have hxs : jsizeL xs ≤ fuel := by have := jsizeV_pos x; omega
          rw [show dumpV false lvl (.arr (x :: xs)) ++ rest
              = 91 :: (10 :: (indent (lvl + 1) ++ (dumpV false (lvl + 1) x ++
                  (dumpElems false (lvl + 1) xs ++
                    (10 :: (indent lvl ++ (93 :: rest)))))))
              by simp [dumpV], parseVal, skipWs_cons_not (by decide)]
          norm_num
          obtain ⟨c0, cs, hc0, hws0, h93, _⟩ :=
            dumpV_head false (lvl + 1) x
          rw [skipWs_nl_indent, hc0, List.cons_append, skipWs_cons_not hws0]
          split
          · next r2 heq =>
            exfalso
            rw [List.cons.injEq] at heq
            exact h93 heq.1
          · next =>
            rw [parseVal_nl_indent,
              show c0 :: (cs ++ (dumpElems false (lvl + 1) xs ++
                    (10 :: (indent lvl ++ (93 :: rest)))))
                  = dumpV false (lvl + 1) x ++
                    (dumpElems false (lvl + 1) xs ++ (10 :: (indent lvl ++ (93 :: rest))))
                by rw [hc0, List.cons_append],
              IH1 x (lvl + 1)
                (dumpElems false (lvl + 1) xs ++ (10 :: (indent lvl ++ (93 :: rest))))
                hx (numOk_dumpElems _ _ _)]
            simp only [Option.some_bind]
            rw [IH2 xs (lvl + 1) lvl rest hxs]
            simp only [Option.some_bind]
      | obj kvs =>
        cases kvs with
        | nil =>
          rw [show dumpV false lvl (.obj []) ++ rest = 123 :: 125 :: rest
              by simp [dumpV], parseVal, skipWs_cons_not (by decide)]
          norm_num
          rw [skipWs_cons_not (by decide)]
        | cons kv kvs =>
          rcases kv with ⟨k, v⟩
          simp only [jsizeV, jsizeO] at hsz
          have hv : 1 + jsizeV v ≤ fuel := by have := jsizeO_pos kvs; omega
          have hkvs : jsizeO kvs ≤ fuel := by have := jsizeV_pos v; omega
          rw [show dumpV false lvl (.obj ((k, v) :: kvs)) ++ rest
              = 123 :: (10 :: (indent (lvl + 1) ++ (dumpKV false (lvl + 1) (k, v) ++
                  (dumpPairs false (lvl + 1) kvs ++
                    (10 :: (indent lvl ++ (125 :: rest)))))))
              by simp [dumpV, dumpKV], parseVal, skipWs_cons_not (by decide)]
          norm_num
          rw [skipWs_nl_indent,
            show dumpKV false (lvl + 1) (k, v) ++
                (dumpPairs false (lvl + 1) kvs ++
                  (10 :: (indent lvl ++ (125 :: rest))))
              = 34 :: (escList false k ++ (34 :: (58 :: (32 :: (dumpV false (lvl + 1) v ++
                  (dumpPairs false (lvl + 1) kvs ++
                    (10 :: (indent lvl ++ (125 :: rest)))))))))
              by simp [dumpKV], skipWs_cons_not (by decide)]
          split
          · next r2 heq =>
            exfalso
            rw [List.cons.injEq] at heq
            omega
          · next =>
            rw [parsePair_nl_indent,
              show 34 :: (escList false k ++ (34 :: (58 :: (32 ::
                      (dumpV false (lvl + 1) v ++
                        (dumpPairs false (lvl + 1) kvs ++
                          (10 :: (indent lvl ++ (125 :: rest)))))))))
                  = dumpKV false (lvl + 1) (k, v) ++
                    (dumpPairs false (lvl + 1) kvs ++
                      (10 :: (indent lvl ++ (125 :: rest))))
                by simp [dumpKV],
              IH3 k v (lvl + 1)
                (dumpPairs false (lvl + 1) kvs ++ (10 :: (indent lvl ++ (125 :: rest))))
                hv (numOk_dumpPairs _ _ _)]
            simp only [Option.some_bind]
            rw [IH4 kvs (lvl + 1) lvl rest hkvs]
            simp only [Option.some_bind]
    refine ⟨P1, ?_, ?_, ?_⟩
    · intro xs lvl l0 rest hsz
      cases xs with
      | nil =>
        rw [show dumpElems false lvl [] ++ (10 :: (indent l0 ++ (93 :: rest)))
            = 10 :: (indent l0 ++ (93 :: rest)) by simp [dumpElems],
          parseTail, skipWs_nl_indent, skipWs_cons_not (by decide)]
      | cons x xs =>
        simp only [jsizeL] at hsz
        have hx : jsizeV x ≤ fuel := by have := jsizeL_pos xs; omega
        have hxs : jsizeL xs ≤ fuel := by have := jsizeV_pos x; omega
        rw [show dumpElems false lvl (x :: xs) ++ (10 :: (indent l0 ++ (93 :: rest)))
            = 44 :: (10 :: (indent lvl ++ (dumpV false lvl x ++
                (dumpElems false lvl xs ++ (10 :: (indent l0 ++ (93 :: rest)))))))
            by simp [dumpElems], parseTail, skipWs_cons_not (by decide)]
        simp only []
        rw [parseVal_nl_indent,
          IH1 x lvl (dumpElems false lvl xs ++ (10 :: (indent l0 ++ (93 :: rest))))
            hx (numOk_dumpElems _ _ _)]
        rw [bind_some_eq]
        simp only []
        rw [IH2 xs lvl l0 rest hxs]
        rw [bind_some_eq]
    · intro k v lvl rest hsz hnum
      have hv : jsizeV v ≤ fuel := by omega
      rw [show dumpKV false lvl (k, v) ++ rest
          = 34 :: (escList false k ++ (34 :: (58 :: (32 :: (dumpV false lvl v ++ rest)))))
          by simp [dumpKV], parsePair, skipWs_cons_not (by decide)]
      norm_num
      rw [parseString_dump k [] _]
      simp only [Option.some_bind]
      rw [skipWs_cons_not (by decide)]
      norm_num
      rw [parseVal_space, IH1 v lvl rest hv hnum]
      simp only [Option.some_bind]
    · intro kvs lvl l0 rest hsz
      cases kvs with
      | nil =>
        rw [show dumpPairs false lvl [] ++ (10 :: (indent l0 ++ (125 :: rest)))
            = 10 :: (indent l0 ++ (125 :: rest)) by simp [dumpPairs],
          parsePTail, skipWs_nl_indent, skipWs_cons_not (by decide)]
      | cons kv kvs =>
        rcases kv with ⟨k, v⟩
        simp only [jsizeO] at hsz
        have hv : 1 + jsizeV v ≤ fuel := by have := jsizeO_pos kvs; omega
        have hkvs : jsizeO kvs ≤ fuel := by have := jsizeV_pos v; omega
        rw [show dumpPairs false lvl ((k, v) :: kvs) ++
              (10 :: (indent l0 ++ (125 :: rest)))
            = 44 :: (10 :: (indent lvl ++ (dumpKV false lvl (k, v) ++
                (dumpPairs false lvl kvs ++ (10 :: (indent l0 ++ (125 :: rest)))))))
            by simp [dumpPairs], parsePTail, skipWs_cons_not (by decide)]
        simp only []
        rw [parsePair_nl_indent,
          IH3 k v lvl (dumpPairs false lvl kvs ++ (10 :: (indent l0 ++ (125 :: rest))))
            hv (numOk_dumpPairs _ _ _)]
        rw [bind_some_eq]
        simp only []
        rw [IH4 kvs lvl l0 rest hkvs]
        rw [bind_some_eq]

mutual

theorem jsizeV_le_dumpLen : ∀ (v : JValue) (lvl : Nat),
    jsizeV v ≤ (dumpV false lvl v).length
  | .null, lvl => by simp [jsizeV, dumpV]
  | .bool b, lvl => by cases b <;> simp [jsizeV, dumpV]
  | .num n, lvl => by
    cases n with
    | ofNat m =>
      have h := natStr_ne_nil m
      have : 0 < (natStr m).length := List.length_pos.mpr h
      simp only [jsizeV, dumpV, intRepr]
      omega
    | negSucc m => simp [jsizeV, dumpV, intRepr]
  | .str s, lvl => by simp [jsizeV, dumpV]
  | .arr [], lvl => by simp [jsizeV, jsizeL, dumpV]
  | .arr (x :: xs), lvl => by
    have hx := jsizeV_le_dumpLen x (lvl + 1)
    have hxs := jsizeL_le_dumpLen xs (lvl + 1)
    simp only [jsizeV, jsizeL, dumpV, List.length_cons, List.length_append]
    omega
  | .obj [], lvl => by simp [jsizeV, jsizeO, dumpV]
  | .obj ((k, v) :: kvs), lvl => by
    have hv := jsizeV_le_dumpLen v (lvl + 1)
    have hkvs := jsizeO_le_dumpLen kvs (lvl + 1)
    simp only [jsizeV, jsizeO, dumpV, dumpKV, List.length_cons, List.length_append]
    omega

theorem jsizeL_le_dumpLen : ∀ (xs : List JValue) (lvl : Nat),
    jsizeL xs ≤ (dumpElems false lvl xs).length + 1
  | [], lvl => by simp [jsizeL, dumpElems]
  | x :: xs, lvl => by
    have hx := jsizeV_le_dumpLen x lvl
    have hxs := jsizeL_le_dumpLen xs lvl
    simp only [jsizeL, dumpElems, List.length_cons, List.length_append]
    omega

theorem jsizeO_le_dumpLen : ∀ (kvs : List (List Nat × JValue)) (lvl : Nat),
    jsizeO kvs ≤ (dumpPairs false lvl kvs).length + 1
  | [], lvl => by simp [jsizeO, dumpPairs]
  | (k, v) :: kvs, lvl => by
    have hv := jsizeV_le_dumpLen v lvl
    have hkvs := jsizeO_le_dumpLen kvs lvl
    simp only [jsizeO, dumpPairs, dumpKV, List.length_cons, List.length_append]
    omega

end

end RoundTripLemmas

/-- `utils.write_json`: serialize `data` to `path` with
`json.dump(data, f, indent=2, ensure_ascii=False)`, overwriting the path.
The file system is modelled as an association list, newest write first. -/
def write_json (data : JValue) (path : String) (fs : List (String × List Nat)) :
    List (String × List Nat) :=
  (path, dumpV false 0 data) :: fs

/-- `utils.read_json`: read the file at `path` and parse it with `json.load`
(which accepts trailing whitespace but no trailing data). -/
def read_json (path : String) (fs : List (String × List Nat)) : Option JValue :=
  match fs.lookup path with
  | none => none
  | some content =>
    match parseVal (content.length + 1) content with
    | some (v, rest) => if skipWs rest = [] then some v else none
    | none => none

/-- C5: reading back the file produced by `write_json` reconstructs a value
structurally equal to the one written, for every JSON value, path and prior
file-system state. -/
theorem read_write_json_round_trip (d : JValue) (path : String)
    (fs : List (String × List Nat)) :
    read_json path (write_json d path fs) = some d := by
  unfold write_json read_json
  have hlk : ((path, dumpV false 0 d) :: fs).lookup path = some (dumpV false 0 d) := by
    simp [List.lookup]
  rw [hlk]
  simp only []
  have hfuel : jsizeV d ≤ (dumpV false 0 d).length + 1 := by
    have := jsizeV_le_dumpLen d 0
    omega
  have hparse := (parse_dump_all ((dumpV false 0 d).length + 1)).1 d 0 [] hfuel rfl
  rw [List.append_nil] at hparse
  rw [hparse]
  rfl

/-!
## Test-file builder (`core/test_builder.py`)

`build_pytest_file` collects `(case.get("input"), case.get("expected"))`
pairs (a missing key yields Python `None`, serialized as JSON `null`),
writes the table with `json.dumps(..., indent=2)` (default
`ensure_ascii=True`) into a `TEST_CASES = ...` assignment, and emits one
parametrized test whose body dispatches on the input: a list is unpacked as
positional arguments, `None` becomes a no-argument call, anything else is a
single argument.
-/

/-- A test-case record (a JSON object as produced by test-case generation). -/
def TestCaseRec := List (String × JValue)

/-- Python `case.get(key)`: `None` (modelled as JSON null) when absent. -/
def recGet (rec : TestCaseRec) (key : String) : JValue :=
  (List.lookup key rec).getD .null

/-- The `param_lines` table of `build_pytest_file`. -/
def buildTable (test_cases : List TestCaseRec) : List (JValue × JValue) :=
  test_cases.map fun c => (recGet c "input", recGet c "expected")

/-- The table as the JSON value handed to `json.dumps` (tuples serialize as
arrays). -/
def tableJson (test_cases : List TestCaseRec) : JValue :=
  .arr ((buildTable test_cases).map fun p => .arr [p.1, p.2])

/-- `test_builder.build_pytest_file`: the full text written to the output
file, concatenated in the order of the source's `f.write` calls. -/
def build_pytest_file (test_cases : List TestCaseRec)
    (module_name func_name : List Nat) : List Nat :=
  strCodes "import pytest\n" ++
  strCodes "from " ++ module_name ++ strCodes " import " ++ func_name ++
    strCodes "\n\n" ++
  strCodes "TEST_CASES = " ++ dumpV true 0 (tableJson test_cases) ++
    strCodes "\n\n" ++
  strCodes "@pytest.mark.parametrize(\"inp, expected\", TEST_CASES)\n" ++
  strCodes "def test_" ++ func_name ++ strCodes "(inp, expected):\n" ++
  strCodes "    if isinstance(inp, list):\n" ++
  strCodes "        result = " ++ func_name ++ strCodes "(*inp)\n" ++
  strCodes "    elif inp is None:\n" ++
  strCodes "        result = " ++ func_name ++ strCodes "()\n" ++
  strCodes "    else:\n" ++
  strCodes "        result = " ++ func_name ++ strCodes "(inp)\n" ++
  strCodes "    assert result == expected\n"

mutual

/-- Whether the serialized form of this value contains a bare `null`, `true`
or `false` token — the three JSON tokens that are not Python literals, so a
`TEST_CASES` literal containing one raises `NameError` when the generated
module is imported. -/
def hasPyBadToken : JValue → Bool
  | .null => true
  | .bool _ => true
  | .num _ => false
  | .str _ => false
  | .arr xs => hasPyBadTokenL xs
  | .obj kvs => hasPyBadTokenO kvs

def hasPyBadTokenL : List JValue → Bool
  | [] => false
  | x :: xs => hasPyBadToken x || hasPyBadTokenL xs

def hasPyBadTokenO : List (List Nat × JValue) → Bool
  | [] => false
  | (_, v) :: kvs => hasPyBadToken v || hasPyBadTokenO kvs

end

/-- The semantics of the callable under test: its value for a no-argument
call, a one-argument call, and a positional-unpacked call. -/
structure CallSem where
  call0 : JValue
  call1 : JValue → JValue
  callN : List JValue → JValue

/-- The arity dispatch in the body of the generated test function:
`isinstance(inp, list)` unpacks, `inp is None` calls with no arguments,
anything else is a single argument. -/
def generatedDispatch (F : CallSem) : JValue → JValue
  | .arr xs => F.callN xs
  | .null => F.call0
  | v => F.call1 v

/-- Running the generated test file under Python and pytest: importing the
module evaluates the `TEST_CASES` literal first, so a table containing a
`null`/`true`/`false` token fails at import (`NameError`) and no test runs
(`none`); otherwise each row yields the asserted comparison's outcome. -/
def runGeneratedTests (table : List (JValue × JValue)) (F : CallSem) :
    Option (List Bool) :=
  if table.any (fun p => hasPyBadToken p.1 || hasPyBadToken p.2) then none
  else some (table.map fun p => decide (generatedDispatch F p.1 = p.2))

/-- A callable that returns `5` however it is invoked. -/
def constSolve : CallSem where
  call0 := .num 5
  call1 := fun _ => .num 5
  callN := fun _ => .num 5

/-- C2: evaluated at a test-case record with no `input` key (and expected
value `5`), `build_pytest_file` writes exactly this file — whose
`TEST_CASES` literal contains the bare token `null`, which is not a Python
literal, so the file raises `NameError` at import and is not runnable by a
standard test runner. -/
theorem build_pytest_file_null_token :
    build_pytest_file [[("expected", JValue.num 5)]]
        (strCodes "solution_1") (strCodes "solve")
      = strCodes "import pytest\nfrom solution_1 import solve\n\nTEST_CASES = [\n  [\n    null,\n    5\n  ]\n]\n\n@pytest.mark.parametrize(\"inp, expected\", TEST_CASES)\ndef test_solve(inp, expected):\n    if isinstance(inp, list):\n        result = solve(*inp)\n    elif inp is None:\n        result = solve()\n    else:\n        result = solve(inp)\n    assert result == expected\n"
    ∧ runGeneratedTests (buildTable [[("expected", JValue.num 5)]]) constSolve
      = none := by
  constructor
  · simp only [build_pytest_file, tableJson, buildTable, recGet]
    simp [dumpV, dumpElems, indent, intRepr, natStr, natStrGo, List.lookup]
    set_option maxRecDepth 4000 in decide
  · simp [runGeneratedTests, buildTable, recGet, hasPyBadToken, List.lookup]

/-- C9 counterexample: on a record lacking the `input` key, even a callable
that returns exactly the expected value is never invoked — the generated
module fails at import because of the serialized `null`, so no test result
exists at all. -/
theorem missing_input_never_invokes :
    runGeneratedTests (buildTable [[("expected", JValue.num 5)]]) constSolve
      = none := by
  simp [runGeneratedTests, buildTable, recGet, hasPyBadToken, List.lookup]

/-- C9 amended: `build_pytest_file` is total on records lacking `input` or
`expected` — whichever field is missing defaults to null in the serialized
table (a missing `expected` makes null the value the emitted assert compares
against), and the emitted dispatch maps a null input to a no-argument call —
but a table row carrying such a null makes the generated file fail at
import, so the no-argument call (or the comparison) never actually runs. -/
theorem build_pytest_missing_keys_amended :
    (∀ (rec : TestCaseRec) (e : JValue), List.lookup "input" rec = none →
        List.lookup "expected" rec = some e → buildTable [rec] = [(.null, e)]) ∧
    (∀ (rec : TestCaseRec) (i : JValue), List.lookup "expected" rec = none →
        List.lookup "input" rec = some i → buildTable [rec] = [(i, .null)]) ∧
    (∀ (rec : TestCaseRec), List.lookup "input" rec = none →
        List.lookup "expected" rec = none → buildTable [rec] = [(.null, .null)]) ∧
    (∀ F : CallSem, generatedDispatch F .null = F.call0) ∧
    (∀ (cases : List TestCaseRec) (rec : TestCaseRec) (F : CallSem),
        rec ∈ cases →
        (List.lookup "input" rec = none ∨ List.lookup "expected" rec = none) →
        runGeneratedTests (buildTable cases) F = none) := by
  refine ⟨?_, ?_, ?_, fun F => rfl, ?_⟩
  · intro rec e h1 h2
    simp [buildTable, recGet, h1, h2]
  · intro rec i h1 h2
    simp [buildTable, recGet, h1, h2]
  · intro rec h1 h2
    simp [buildTable, recGet, h1, h2]
  · intro cases rec F hmem hmiss
    have hbad : (buildTable cases).any
        (fun p => hasPyBadToken p.1 || hasPyBadToken p.2) = true := by
      rw [List.any_eq_true]
      refine ⟨(recGet rec "input", recGet rec "expected"),
        List.mem_map_of_mem _ hmem, ?_⟩
      rcases hmiss with h | h
      · simp [recGet, h, hasPyBadToken]
      · simp [recGet, h, hasPyBadToken]
    unfold runGeneratedTests
    rw [if_pos hbad]

/-- Closed instance of `build_pytest_missing_keys_amended`, exercising both a
record lacking `input` and a record lacking `expected`. -/
theorem build_pytest_missing_keys_amended_witness :
    buildTable [[("expected", JValue.num 5)]] = [(.null, .num 5)] ∧
    buildTable [[("input", JValue.num 3)]] = [(.num 3, .null)] ∧
    buildTable [([] : TestCaseRec)] = [(.null, .null)] ∧
    generatedDispatch constSolve .null = constSolve.call0 ∧
    runGeneratedTests (buildTable [[("input", JValue.num 3)]]) constSolve
      = none :=
  ⟨build_pytest_missing_keys_amended.1 [("expected", JValue.num 5)]
      (JValue.num 5) rfl rfl,
   build_pytest_missing_keys_amended.2.1 [("input", JValue.num 3)]
      (JValue.num 3) rfl rfl,
   build_pytest_missing_keys_amended.2.2.1 [] rfl rfl,
   build_pytest_missing_keys_amended.2.2.2.1 constSolve,
   build_pytest_missing_keys_amended.2.2.2.2 [[("input", JValue.num 3)]]
      [("input", JValue.num 3)] constSolve (List.mem_cons_self _ _)
      (Or.inr rfl)⟩

/-!
## Front-end pipeline (`app.py`, Generate button)

The pipeline is modelled as a function from the outcomes of its stages to
the rendered events of one run.  `core/generator.py` and
`core/validator.py` are imported by `app.py` but are not among the sources;
their outcomes (`generate_solutions`, `generate_test_cases`,
`validate_solutions`) are therefore inputs of the model — per the spec,
generation may degrade to an empty list on failure.  An uncaught Python
exception aborts the run; the model returns `Except.error` for it.
-/

/-- Python `pathlib.Path(p).name`: the part after the last `/`. -/
def pathName (p : List Nat) : List Nat :=
  (p.reverse.takeWhile (fun c => c != 47)).reverse

/-- Python `pathlib.Path(p).stem`: the name with its last extension removed
(a dot that starts the name is not an extension). -/
def pathStem (p : List Nat) : List Nat :=
  match (pathName p).reverse.dropWhile (fun c => c != 46) with
  | [] => pathName p
  | [_] => pathName p
  | _ :: t => t.reverse

/-- `test_builder.create_test_suite_for_solutions`: one test file per
solution file, named `test_<stem>.py` inside `output_dir`; returns the
generated paths in order.  (The directory creation and the per-file
`build_pytest_file` write are side effects; the pipeline records them as
write events.) -/
def create_test_suite_for_solutions (solution_files : List (List Nat))
    (output_dir : List Nat) : List (List Nat) :=
  solution_files.map fun sol_path =>
    output_dir ++ 47 :: (strCodes "test_" ++ pathStem sol_path ++ strCodes ".py")

/-- Modelled from the spec: `core/generator.py` (and the rendering detail of
`core/validator.py`) is imported by `app.py` but is not among the sources.
Per spec §4.3, `generate_solutions` returns an ordered list of solution
strings and may degrade to an empty list on failure, and
`generate_test_cases` returns an ordered list of test-case records (possibly
empty) from the first solution; their outcomes are therefore inputs of the
pipeline model.  `genTests` is the outcome of `generate_test_cases` as a
function of the solution text it is handed (`app.py` passes
`solutions[0]`). -/
structure RunConfig where
  pdfPresent : Bool
  templatePresent : Bool
  pdfName : List Nat
  problemData : List (String × List Nat)
  solutions : List (List Nat)
  genTests : List Nat → List TestCaseRec

/-- The user-visible actions and side effects of one run, in order. -/
inductive Event where
  | errorMissingFiles
  | sectionShown (key : String) (text : List Nat)
  | templateShown
  | solutionShown (idx : Nat)
  | testCaseShown
  | warnedNoTests
  | validated
  | wroteFile (path : List Nat)
  | archiveBuilt (files : List (List Nat × List Nat))
  | downloadOffered (zipName : List Nat)
deriving DecidableEq

inductive RunError where
  | solutionsIndexOutOfRange
deriving DecidableEq

/-- The working directory (`tempfile.gettempdir()`), abstracted to a fixed
slash-free name. -/
def workDir : List Nat := strCodes "tmp"

/-- The `solution_paths` local of the packaging block: `solution_<i>.py`
(1-indexed) inside the working directory. -/
def solutionPaths (n : Nat) : List (List Nat) :=
  (List.range n).map fun idx =>
    workDir ++ 47 :: (strCodes "solution_" ++ natStr (idx + 1) ++ strCodes ".py")

/-- The `tests_dir` local: the `tests` subdirectory of the working directory. -/
def testsDir : List Nat := workDir ++ 47 :: strCodes "tests"

/-- The `files_to_zip` local: each solution under its base name at the
archive root, each test file under `tests/`. -/
def filesToZip (n : Nat) : List (List Nat × List Nat) :=
  ((solutionPaths n).map fun p => (pathName p, p)) ++
  ((create_test_suite_for_solutions (solutionPaths n) testsDir).map fun t =>
    (strCodes "tests/" ++ pathName t, t))

/-- The `zip_name` local: `slugify(pdf name) + "_suite.zip"`. -/
def zipName (pdfName : List Nat) : List Nat :=
  slugify pyAscii false pdfName ++ strCodes "_suite.zip"

/-- The Generate-button pipeline of `app.py`: check the two uploads, render
the extracted sections (non-empty values only) and the template, render the
generated solutions, evaluate `solutions[0]` — an `IndexError` aborting the
run when the list is empty — then either warn on an empty test-case list or
render the cases, validate, write `solution_<i>.py` files, build the test
suite under `tests/`, assemble the ZIP entry list and offer the download
named `slugify(pdf name) + "_suite.zip"`. -/
def runGenerate (cfg : RunConfig) : Except RunError (List Event) :=
  if cfg.pdfPresent && cfg.templatePresent then
    let sectionEvents := cfg.problemData.filterMap fun kv =>
      if kv.2.isEmpty then none else some (Event.sectionShown kv.1 kv.2)
    let solEvents := (List.range cfg.solutions.length).map Event.solutionShown
    match cfg.solutions with
    | [] => .error .solutionsIndexOutOfRange
    | s0 :: rest =>
      let test_cases := cfg.genTests s0
      let tcEvents := if test_cases.isEmpty then [Event.warnedNoTests]
        else test_cases.map fun _ => Event.testCaseShown
      let valEvents : List Event :=
        if test_cases.isEmpty then [] else [.validated]
      let pkgEvents : List Event :=
        if test_cases.isEmpty then [] else
          (solutionPaths (s0 :: rest).length).map Event.wroteFile ++
          (create_test_suite_for_solutions (solutionPaths (s0 :: rest).length)
            testsDir).map Event.wroteFile ++
          [Event.archiveBuilt (filesToZip (s0 :: rest).length),
           Event.downloadOffered (zipName cfg.pdfName)]
      .ok (sectionEvents ++ [Event.templateShown] ++ solEvents ++ tcEvents ++
        valEvents ++ pkgEvents)
  else .ok [Event.errorMissingFiles]

/-- C3: at the failing input — both files present but solution generation
degraded to the empty list (an outcome spec §4.3 sanctions) — the run
evaluates `solutions[0]` and aborts with an uncaught `IndexError` instead of
reporting the shortfall. -/
theorem app_crashes_on_empty_solutions :
    runGenerate ⟨true, true, strCodes "p.pdf", [], [], fun _ => []⟩
      = .error .solutionsIndexOutOfRange := rfl

/-- The events of a run whose test-case generation returned the empty list:
sections, template, the rendered solutions, and the warning — nothing else. -/
def noTestEvents (cfg : RunConfig) (n : Nat) : List Event :=
  (cfg.problemData.filterMap fun kv =>
    if kv.2.isEmpty then none else some (Event.sectionShown kv.1 kv.2)) ++
  [Event.templateShown] ++ (List.range n).map Event.solutionShown ++
  [Event.warnedNoTests]

/-- C6: when test-case generation yields the empty list (with both files
present and at least one solution, so the run reaches that stage), the run
completes with a warning and performs neither validation nor packaging: no
`validate_solutions` rendering, no file writes, no archive, no download. -/
theorem empty_tests_skip_validation_and_packaging (cfg : RunConfig)
    (s0 : List Nat) (rest : List (List Nat))
    (hpdf : cfg.pdfPresent = true) (htpl : cfg.templatePresent = true)
    (hsol : cfg.solutions = s0 :: rest) (htc : cfg.genTests s0 = []) :
    runGenerate cfg = .ok (noTestEvents cfg (s0 :: rest).length) ∧
    Event.warnedNoTests ∈ noTestEvents cfg (s0 :: rest).length ∧
    ∀ e ∈ noTestEvents cfg (s0 :: rest).length,
      e ≠ Event.validated ∧ (∀ p, e ≠ Event.wroteFile p) ∧
      (∀ fs, e ≠ Event.archiveBuilt fs) ∧ (∀ z, e ≠ Event.downloadOffered z) := by
  refine ⟨?_, ?_, ?_⟩
  · unfold runGenerate noTestEvents
    rw [hpdf, htpl, hsol]
    simp [htc]
  · unfold noTestEvents
    simp
  · intro e he
    unfold noTestEvents at he
    simp only [List.mem_append, List.mem_filterMap, List.mem_map,
      List.mem_singleton] at he
    rcases he with ((⟨kv, _, heq⟩ | rfl) | ⟨i, _, rfl⟩) | rfl
    · by_cases hkv : kv.2.isEmpty
      · rw [if_pos hkv] at heq
        exact absurd heq (by simp)
      · rw [if_neg hkv] at heq
        rw [← Option.some.inj heq]
        refine ⟨by simp, fun p => by simp, fun fs => by simp, fun z => by simp⟩
    · refine ⟨by simp, fun p => by simp, fun fs => by simp, fun z => by simp⟩
    · refine ⟨by simp, fun p => by simp, fun fs => by simp, fun z => by simp⟩
    · refine ⟨by simp, fun p => by simp, fun fs => by simp, fun z => by simp⟩

section ArchiveLemmas

theorem pathName_last {d x : List Nat} (hx : ∀ c ∈ x, c ≠ 47) :
    pathName (d ++ 47 :: x) = x := by
  unfold pathName
  have hrev : (d ++ 47 :: x).reverse = x.reverse ++ 47 :: d.reverse := by
    simp [List.reverse_append, List.reverse_cons, List.append_assoc]
  have ha : ∀ c ∈ x.reverse, (fun c => c != 47) c = true := by
    intro c hc
    simpa using hx c (List.mem_reverse.mp hc)
  have hb : ∀ c, (47 :: d.reverse).head? = some c → (fun c => c != 47) c = false := by
    intro c hc
    simp only [List.head?_cons, Option.some.injEq] at hc
    subst hc
    simp
  rw [hrev, takeWhile_app_all ha hb, List.reverse_reverse]

theorem pathStem_py {d x : List Nat} (hx : ∀ c ∈ x, c ≠ 47) (hne : x ≠ []) :
    pathStem (d ++ 47 :: (x ++ strCodes ".py")) = x := by
  have hpy : ∀ c ∈ x ++ strCodes ".py", c ≠ 47 := by
    intro c hc
    rcases List.mem_append.mp hc with h | h
    · exact hx c h
    · rw [show strCodes ".py" = [46, 112, 121] from rfl] at h
      simp at h
      omega
  unfold pathStem
  rw [pathName_last hpy]
  obtain ⟨y, ys, hys⟩ : ∃ y ys, x.reverse = y :: ys := by
    rcases hx' : x.reverse with _ | ⟨y, ys⟩
    · rw [List.reverse_eq_nil_iff] at hx'
      exact absurd hx' hne
    · exact ⟨y, ys, rfl⟩
  have hsh : (x ++ strCodes ".py").reverse = 121 :: 112 :: 46 :: x.reverse := by
    rw [show strCodes ".py" = [46, 112, 121] from rfl]
    simp [List.reverse_append]
  rw [hsh, List.dropWhile_cons_of_pos (by decide),
    List.dropWhile_cons_of_pos (by decide),
    List.dropWhile_cons_of_neg (by decide), hys]
  simp only []
  rw [← hys, List.reverse_reverse]

theorem solBase_no_slash (i : Nat) :
    ∀ c ∈ strCodes "solution_" ++ natStr (i + 1), c ≠ 47 := by
  intro c hc
  rcases List.mem_append.mp hc with h | h
  · rw [show strCodes "solution_"
        = [115, 111, 108, 117, 116, 105, 111, 110, 95] from rfl] at h
    simp at h
    omega
  · have := natStr_digits c h
    simp only [isDigitCode, Bool.and_eq_true, decide_eq_true_eq] at this
    omega

theorem solFile_no_slash (i : Nat) :
    ∀ c ∈ strCodes "solution_" ++ natStr (i + 1) ++ strCodes ".py", c ≠ 47 := by
  intro c hc
  rcases List.mem_append.mp hc with h | h
  · exact solBase_no_slash i c h
  · rw [show strCodes ".py" = [46, 112, 121] from rfl] at h
    simp at h
    omega

theorem testFile_no_slash (i : Nat) :
    ∀ c ∈ strCodes "test_" ++ (strCodes "solution_" ++ natStr (i + 1)) ++
        strCodes ".py", c ≠ 47 := by
  intro c hc
  rcases List.mem_append.mp hc with h | h
  · rcases List.mem_append.mp h with h' | h'
    · rw [show strCodes "test_" = [116, 101, 115, 116, 95] from rfl] at h'
      simp at h'
      omega
    · exact solBase_no_slash i c h'
  · rw [show strCodes ".py" = [46, 112, 121] from rfl] at h
    simp at h
    omega

/-- ZIP arc name of the `i`-th solution (0-indexed): `solution_<i+1>.py`. -/
def solArcName (i : Nat) : List Nat :=
  strCodes "solution_" ++ natStr (i + 1) ++ strCodes ".py"

/-- ZIP arc name of the `i`-th test file: `tests/test_solution_<i+1>.py`. -/
def testArcName (i : Nat) : List Nat :=
  strCodes "tests/test_solution_" ++ natStr (i + 1) ++ strCodes ".py"

/-- The entry names the archive of an `n`-solution run must carry. -/
def expectedArcNames (n : Nat) : List (List Nat) :=
  (List.range n).map solArcName ++ (List.range n).map testArcName

theorem tests_prefix_merge (i : Nat) :
    strCodes "tests/" ++ (strCodes "test_" ++ (strCodes "solution_" ++
      natStr (i + 1)) ++ strCodes ".py") = testArcName i := by
  unfold testArcName
  simp only [← List.append_assoc]
  rw [show (strCodes "tests/" ++ strCodes "test_") ++ strCodes "solution_"
      = strCodes "tests/test_solution_" from rfl]

theorem filesToZip_fst (n : Nat) :
    (filesToZip n).map Prod.fst = expectedArcNames n := by
  unfold filesToZip expectedArcNames create_test_suite_for_solutions solutionPaths
  simp only [List.map_append, List.map_map]
  congr 1
  · refine List.map_congr_left ?_
    intro i _
    simp only [Function.comp]
    exact pathName_last (solFile_no_slash i)
  · refine List.map_congr_left ?_
    intro i _
    simp only [Function.comp]
    rw [pathStem_py (solBase_no_slash i) (by
      rw [show strCodes "solution_"
          = [115, 111, 108, 117, 116, 105, 111, 110, 95] from rfl]
      simp)]
    rw [pathName_last (testFile_no_slash i), tests_prefix_merge i]

theorem solArcName_inj : Function.Injective solArcName := by
  intro a b h
  unfold solArcName at h
  have h1 := List.append_cancel_right h
  have h2 := List.append_cancel_left h1
  have := natStr_inj h2
  omega

theorem testArcName_inj : Function.Injective testArcName := by
  intro a b h
  unfold testArcName at h
  have h1 := List.append_cancel_right h
  have h2 := List.append_cancel_left h1
  have := natStr_inj h2
  omega

theorem solArc_ne_testArc (i j : Nat) : solArcName i ≠ testArcName j := by
  intro h
  have := congrArg List.head? h
  rw [show (solArcName i).head? = some 115 from rfl,
    show (testArcName j).head? = some 116 from rfl] at this
  simp at this

theorem expectedArcNames_nodup (n : Nat) : (expectedArcNames n).Nodup := by
  unfold expectedArcNames
  refine List.Nodup.append ((List.nodup_range n).map solArcName_inj)
    ((List.nodup_range n).map testArcName_inj) ?_
  intro a ha hb
  simp only [List.mem_map] at ha hb
  obtain ⟨i, _, rfl⟩ := ha
  obtain ⟨j, _, hj⟩ := hb
  exact solArc_ne_testArc i j hj.symm

end ArchiveLemmas

/-- The full event list of a run that reaches packaging. -/
def fullEvents (cfg : RunConfig) (s0 : List Nat) (rest : List (List Nat)) :
    List Event :=
  (cfg.problemData.filterMap fun kv =>
    if kv.2.isEmpty then none else some (Event.sectionShown kv.1 kv.2)) ++
  [Event.templateShown] ++
  (List.range (s0 :: rest).length).map Event.solutionShown ++
  (cfg.genTests s0).map (fun _ => Event.testCaseShown) ++
  [Event.validated] ++
  ((solutionPaths (s0 :: rest).length).map Event.wroteFile ++
   (create_test_suite_for_solutions (solutionPaths (s0 :: rest).length)
     testsDir).map Event.wroteFile ++
   [Event.archiveBuilt (filesToZip (s0 :: rest).length),
    Event.downloadOffered (zipName cfg.pdfName)])

theorem runGenerate_ok (cfg : RunConfig) (s0 : List Nat)
    (rest : List (List Nat)) (hpdf : cfg.pdfPresent = true)
    (htpl : cfg.templatePresent = true) (hsol : cfg.solutions = s0 :: rest)
    (hne : (cfg.genTests s0).isEmpty = false) :
    runGenerate cfg = .ok (fullEvents cfg s0 rest) := by
  unfold runGenerate fullEvents
  rw [hpdf, htpl, hsol]
  simp [hne]

/-- C7: a run with `n` generated solutions and a nonempty test-case list
builds its archive from exactly the entries `solution_1.py … solution_n.py`
at the root followed by `tests/test_solution_1.py … tests/test_solution_n.py`,
and these arc names are pairwise distinct. -/
theorem archive_has_exact_entries (cfg : RunConfig) (s0 : List Nat)
    (rest : List (List Nat)) (hpdf : cfg.pdfPresent = true)
    (htpl : cfg.templatePresent = true) (hsol : cfg.solutions = s0 :: rest)
    (htc : cfg.genTests s0 ≠ []) :
    ∃ evs, runGenerate cfg = .ok evs ∧
      Event.archiveBuilt (filesToZip (s0 :: rest).length) ∈ evs ∧
      (filesToZip (s0 :: rest).length).map Prod.fst
        = expectedArcNames (s0 :: rest).length ∧
      (expectedArcNames (s0 :: rest).length).Nodup := by
  have hne : (cfg.genTests s0).isEmpty = false := by
    rcases h : cfg.genTests s0 with _ | ⟨t, ts⟩
    · exact absurd h htc
    · rfl
  refine ⟨fullEvents cfg s0 rest,
    runGenerate_ok cfg s0 rest hpdf htpl hsol hne, ?_,
    filesToZip_fst _, expectedArcNames_nodup _⟩
  unfold fullEvents
  simp

/-- Closed instance of `archive_has_exact_entries` at a two-solution run:
the archive's entry names are exactly the four expected names. -/
theorem archive_has_exact_entries_witness :
    (∃ evs, runGenerate ⟨true, true, strCodes "p.pdf", [],
        [strCodes "a", strCodes "b"],
        fun _ => [[("input", JValue.num 1)]]⟩ = .ok evs ∧
      Event.archiveBuilt (filesToZip 2) ∈ evs ∧
      (filesToZip 2).map Prod.fst = expectedArcNames 2 ∧
      (expectedArcNames 2).Nodup) ∧
    expectedArcNames 2 = [strCodes "solution_1.py", strCodes "solution_2.py",
      strCodes "tests/test_solution_1.py", strCodes "tests/test_solution_2.py"] := by
  constructor
  · exact archive_has_exact_entries _ (strCodes "a") [strCodes "b"] rfl rfl rfl
      (by simp)
  · unfold expectedArcNames
    rw [show List.range 2 = [0, 1] from rfl]
    simp only [List.map_cons, List.map_nil, solArcName, testArcName]
    rw [show natStr (0 + 1) = [49] by rw [natStr, natStrGo]; norm_num,
      show natStr (1 + 1) = [50] by rw [natStr, natStrGo]; norm_num]
    set_option maxRecDepth 4000 in decide

/-- Closed instance of `empty_tests_skip_validation_and_packaging` at a run
with one solution and failed test generation. -/
theorem empty_tests_skip_witness :
    runGenerate ⟨true, true, strCodes "a.pdf", [("statement", strCodes "x")],
        [strCodes "code"], fun _ => []⟩
      = .ok (noTestEvents ⟨true, true, strCodes "a.pdf",
          [("statement", strCodes "x")], [strCodes "code"], fun _ => []⟩ 1) ∧
    Event.warnedNoTests ∈ noTestEvents ⟨true, true, strCodes "a.pdf",
        [("statement", strCodes "x")], [strCodes "code"], fun _ => []⟩ 1 :=
  ⟨(empty_tests_skip_validation_and_packaging _ (strCodes "code") [] rfl rfl
      rfl rfl).1,
   (empty_tests_skip_validation_and_packaging _ (strCodes "code") [] rfl rfl
      rfl rfl).2.1⟩

end TesterAgent
